import Mathlib

/-!
Verification of the ART (Allotment Routing Table) implementation
(`ipArt.c`, `ipArt.h`, `ipArtPathComp.c`): a shallow embedding of the
data model and the operations, and proofs and refutations of the
specification claims.

Conventions of the embedding:
* `u8` bytes are `Nat` (all byte values handled are `< 256`; the C bit
  operations are translated literally with `Nat` shifts and masks).
* A byte string (`u8*`) is a `List Nat` together with an explicit read
  position, so the pointer-advancing helpers (`fringeIndex`,
  `setStartBitPos`) return the new position explicitly.
* A `routeEnt*` is an `Option Nat`: `none` is the NULL pointer, `some i`
  is a pointer to slot `i` of the table's route store.  Pointer equality
  of the C code is equality of these values.
* A `tableEntry` cell (`Ent`) is either a machine word holding a route
  pointer (`Ent.ptr`, where `Ent.ptr none` is an empty cell: the empty
  cell and the NULL route pointer are the same zero word in the C code),
  or a tagged subtable pointer (`Ent.sub`).  `Ent.sub` carries the
  subtable it points to: level (`heap[-1]`), the two bookkeeping
  counters of `heap[0]` (`count` for the simple trie resp. `nRoutes`
  and `nSubtables` for the path-compressed trie), the hidden address
  cache of the path-compressed variant, and the cell array
  (indices `0 .. 2N-1`; index `0` is kept as a placeholder so that the
  indices match the C code).
* Comparing a tagged subtable word with a route pointer (as the C code
  does with `t[j].ent == r`) is never an equality, because subtable
  words have bit 0 set and route pointers do not; `entEqPtr` models
  this.
-/

namespace Art

/-- `routeEnt` (ipArt.h): destination bytes, prefix length, level. -/
structure Route where
  dest : List Nat
  plen : Nat
  level : Nat
deriving DecidableEq, Repr

/-- `strideInfo` (ipArt.h). -/
structure StrideInfo where
  sb : Nat
  bo : Nat
  sl : Nat
  tl : Nat
deriving DecidableEq, Repr

instance : Inhabited StrideInfo := ⟨⟨0, 0, 0, 0⟩⟩

/-- Read byte `i` of a byte string (in-bounds in all executions below). -/
def byteAt (a : List Nat) (i : Nat) : Nat := a.getD i 0

/-- `bitCmp8` (ipArt.h): compare bits `st..en` (0 = most significant side
of the mask construction in the source) of two bytes. -/
def bitCmp8 (p1 p2 : Nat) (st en : Nat) : Int :=
  let mask : Nat := ((255 >>> (8 - (en - st + 1))) <<< st) % 256
  (Int.ofNat (p1 &&& mask)) - (Int.ofNat (p2 &&& mask))

/-- Tail of `bitStrCmp` (ipArt.h): the byte loop that runs while
`en >= sb + 8`, then the final partial-byte comparison.  Returns the
comparison result together with the index where comparison stopped.
The fuel is structural only; the caller passes at least the number of
loop iterations, so the fuel never runs out. -/
def bitStrCmpLoop (p1 p2 : List Nat) (en : Nat) : Nat → Nat → Nat → Int × Nat
  | 0, i, _ => (0, i)
  | fuel + 1, i, sb =>
    if en ≥ sb + 8 then
      if byteAt p1 i ≠ byteAt p2 i then
        ((Int.ofNat (byteAt p1 i)) - (Int.ofNat (byteAt p2 i)), i)
      else
        bitStrCmpLoop p1 p2 en fuel (i + 1) (sb + 8)
    else
      (bitCmp8 (byteAt p1 i) (byteAt p2 i) (7 - (en - sb)) 7, i)

/-- `bitStrCmp` (ipArt.h): compare bits `st..en` of two byte strings. -/
def bitStrCmp (p1 p2 : List Nat) (st en : Nat) : Int × Nat :=
  let i := st >>> 3
  let sb := i <<< 3
  let st1 := 7 - (st - sb)
  if en < sb + 8 then
    (bitCmp8 (byteAt p1 i) (byteAt p2 i) (7 - (en - sb)) st1, i)
  else
    let rc := bitCmp8 (byteAt p1 i) (byteAt p2 i) 0 st1
    if rc ≠ 0 then (rc, i)
    else bitStrCmpLoop p1 p2 en ((en >>> 3) + 2) (i + 1) (sb + 8)

/-- `bits2bytes` (ipArt.h). -/
def bits2bytes (nBits : Nat) : Nat :=
  if nBits &&& 7 ≠ 0 then (nBits >>> 3) + 1 else nBits >>> 3

/-- Byte loop of `cmpAddr` (ipArt.h): `len` starts at 8 and the loop
body compares a byte while `len <= plen`; afterwards the remaining
`< 8` bits are mask-compared.  The fuel is structural only and never
runs out for the fuel passed by `cmpAddr`. -/
def cmpAddrLoop (p1 p2 : List Nat) (plen : Nat) : Nat → Nat → Nat → Bool
  | 0, _, _ => false
  | fuel + 1, i, len =>
    if len ≤ plen then
      if byteAt p1 i ≠ byteAt p2 i then false
      else cmpAddrLoop p1 p2 plen fuel (i + 1) (len + 8)
    else if len = plen then true
    else
      let mask : Nat := 255 &&& (255 - ((1 <<< (len - plen)) - 1))
      (byteAt p1 i &&& mask) = (byteAt p2 i &&& mask)

/-- `cmpAddr` (ipArt.h): equality of the first `plen` bits. -/
def cmpAddr (p1 p2 : List Nat) (plen : Nat) : Bool :=
  cmpAddrLoop p1 p2 plen ((plen >>> 3) + 2) 0 8

/-- Loop of `plen2level` (ipArt.h / ipArtPathComp.c): subtract stride
lengths until the remaining prefix length is `<= 0`. -/
def plen2levelGo : List StrideInfo → Nat → Int → Nat
  | [], l, _ => l
  | si :: rest, l, p =>
      let p2 := p - (si.sl : Int)
      if p2 ≤ 0 then l else plen2levelGo rest (l + 1) p2

/-- `plen2level` (ipArt.h): the trie level of a prefix length. -/
def plen2level (psi : List StrideInfo) (plen : Nat) : Nat :=
  plen2levelGo psi 0 (Int.ofNat plen)

/-- `fringeIndex` (ipArt.h): extract `nBits` bits starting at bit
`offset` of byte `pos`, returning the advanced position, the new
offset and the fringe index `bits + 2^nBits`. -/
def fringeIndex (a : List Nat) (pos offset nBits : Nat) : Nat × Nat × Nat :=
  let c := offset
  let b := c + nBits
  let (pos2, b2, v) :=
    if b ≤ 8 then
      (pos, b, (byteAt a pos >>> (8 - b)) &&& ((1 <<< nBits) - 1))
    else if b ≤ 16 then
      let b3 := b - 8
      (pos + 1, b3,
        ((byteAt a pos &&& ((1 <<< (8 - c)) - 1)) <<< b3) |||
        (byteAt a (pos + 1) >>> (8 - b3)))
    else if b ≤ 24 then
      let b3 := b - 16
      (pos + 2, b3,
        ((byteAt a pos &&& ((1 <<< (8 - c)) - 1)) <<< (8 + b3)) |||
        ((byteAt a (pos + 1)) <<< b3) |||
        (byteAt a (pos + 2) >>> (8 - b3)))
    else
      let b3 := b - 24
      (pos + 3, b3,
        ((byteAt a pos &&& ((1 <<< (8 - c)) - 1)) <<< (16 + b3)) |||
        ((byteAt a (pos + 1)) <<< (8 + b3)) |||
        ((byteAt a (pos + 2)) <<< b3) |||
        (byteAt a (pos + 3) >>> (8 - b3)))
  if b2 = 8 then (pos2 + 1, 0, v + (1 <<< nBits))
  else (pos2, b2, v + (1 <<< nBits))

/-- Level-search loop of `baseIndex` (ipArt.h): find the level whose
stride contains the prefix end, accumulating the consumed length. -/
def baseIndexLevel : List StrideInfo → Nat → Nat → Nat × Nat
  | [], len, _ => (0, len)
  | si :: rest, len, plen =>
      if plen ≤ len + si.sl then (si.sl, len)
      else baseIndexLevel rest (len + si.sl) plen

/-- `baseIndex` (ipArt.h): heap index of prefix `(p, plen)` inside the
heap of its level. -/
def baseIndex (psi : List StrideInfo) (p : List Nat) (plen : Nat) : Nat :=
  let (sl, len) := baseIndexLevel psi 0 plen
  let pos := len >>> 3
  let plen2 := plen - len
  let i := len &&& 7
  let len2 := i + sl
  let st :=
    if len2 ≤ 8 then
      (byteAt p pos >>> (8 - len2)) &&& ((1 <<< sl) - 1)
    else if len2 ≤ 16 then
      let l3 := len2 - 8
      ((byteAt p pos &&& ((1 <<< (8 - i)) - 1)) <<< l3) |||
      (byteAt p (pos + 1) >>> (8 - l3))
    else if len2 ≤ 24 then
      let l3 := len2 - 16
      ((byteAt p pos &&& ((1 <<< (8 - i)) - 1)) <<< (8 + l3)) |||
      ((byteAt p (pos + 1)) <<< l3) |||
      (byteAt p (pos + 2) >>> (8 - l3))
    else
      let l3 := len2 - 24
      ((byteAt p pos &&& ((1 <<< (8 - i)) - 1)) <<< (16 + l3)) |||
      ((byteAt p (pos + 1)) <<< (8 + l3)) |||
      ((byteAt p (pos + 2)) <<< l3) |||
      (byteAt p (pos + 3) >>> (8 - l3))
  (st >>> (sl - plen2)) + (1 <<< plen2)

/-- `setStartBitPos` (ipArtPathComp.c): byte position and bit offset at
which the stride of level `l` starts. -/
def setStartBitPos (psi : List StrideInfo) (pos : Nat) (l : Nat) : Nat × Nat :=
  if l = 0 then (pos, 0)
  else
    let tl := (psi.getD (l - 1) default).tl
    (pos + (tl >>> 3), tl &&& 7)

/-- `firstDiffLevel` (ipArtPathComp.c): the trie level at which the
first difference between two addresses occurs, given the byte index
`idx` where `bitStrCmp` stopped. -/
def firstDiffLevelGo (p1 p2 : List Nat) (idx : Nat) (nBits : Nat) :
    List StrideInfo → Nat → Nat
  | [], l => l
  | si :: rest, l =>
      if si.tl > nBits then
        let offset := si.tl - nBits
        let mask : Nat := 255 &&& (255 - ((1 <<< offset) - 1))
        if (byteAt p1 idx &&& mask) = (byteAt p2 idx &&& mask) then l + 1
        else l
      else firstDiffLevelGo p1 p2 idx nBits rest (l + 1)

def firstDiffLevel (psi : List StrideInfo) (idx : Nat) (p1 p2 : List Nat) : Nat :=
  firstDiffLevelGo p1 p2 idx (idx <<< 3) psi 0

/-- `strideLen` (ipArtPathComp.c). -/
def strideLen (psi : List StrideInfo) (level : Nat) : Nat :=
  (psi.getD level default).tl

/-- `addrCpy` (ipArtPathComp.c): copy `nBits` bits of `src` into a
fresh zeroed buffer, masking the trailing partial byte. -/
def addrCpy (src : List Nat) (nBits : Nat) : List Nat :=
  let nBytes := bits2bytes nBits
  let len := nBytes <<< 3
  let n := if len > nBits then nBytes - 1 else nBytes
  (List.range n).map (fun i => byteAt src i) ++
    (if n < nBytes then
      [byteAt src n &&& (255 &&& (255 - ((1 <<< (len - nBits)) - 1)))]
     else [])

/-- A `tableEntry` cell.  `ptr p` is a machine word holding the route
pointer `p` (with `ptr none` the zero word, i.e. an empty cell);
`sub level c1 c2 cache cells` is a tagged pointer to a subtable,
carrying the pointed-to subtable: its hidden level cell `heap[-1]`,
the two bookkeeping counters packed into `heap[0]` (`count` for the
simple trie, `nRoutes`/`nSubtables` for the path-compressed one), the
hidden address cache of the path-compressed variant, and the cell
array `heap[0..2N-1]` (index 0 is a placeholder so indices match the
C code). -/
inductive Ent where
  | ptr : Option Nat → Ent
  | sub : Nat → Int → Int → List Nat → List Ent → Ent

instance : Inhabited Ent := ⟨.ptr none⟩

/-- Read cell `i` of a heap. -/
def getCell (t : List Ent) (i : Nat) : Ent := t.getD i (.ptr none)

/-- `isSubtable` (ipArt.h): test bit 0 of the cell word. -/
def isSub : Ent → Bool
  | .sub _ _ _ _ _ => true
  | .ptr _ => false

/-- The comparison `t[j].ent == r` of the C code: a route-pointer word
equals the route pointer `r` iff it holds `r`; a tagged subtable word
(bit 0 set) never equals a route pointer (bit 0 clear). -/
def entEqPtr : Ent → Option Nat → Bool
  | .ptr p, r => p = r
  | .sub _ _ _ _ _, _ => false

/-- `subtablePtr(z).down[1]`: cell 1 of the subtable a cell points to
(meaningful only for `sub` cells). -/
def entDown1 : Ent → Ent
  | .sub _ _ _ _ cs => getCell cs 1
  | .ptr _ => .ptr none

/-- `subtablePtr(z).down[1].ent = s`: replace cell 1 of the pointed-to
subtable. -/
def entSetDown1 (e : Ent) (s : Option Nat) : Ent :=
  match e with
  | .sub l a b ca cs => .sub l a b ca (cs.set 1 (.ptr s))
  | .ptr p => .ptr p

/-!
## The allotment state machine (`rtArtAllot`, ipArt.h)

The source is a goto state machine (labels `startChange`, the fringe
`while` loop, `nonFringe`, `moveOn`, `moveUp`).  We embed it as a step
function on a state `(j, phase, cells)` run with fuel, and prove it
equal to the recursive function `allotAt` it expands.
-/

/-- The fringe-cell update of `rtArtAllot`: at a fringe index, if the
cell is a subtable pointer and `fringeCheck` holds, replace the child's
cell 1 when it equals `r`; otherwise replace the cell itself when it
equals `r`. -/
def fringeUpd (fc : Bool) (r s : Option Nat) (t : List Ent) (j : Nat) : List Ent :=
  if fc && isSub (getCell t j) then
    if entEqPtr (entDown1 (getCell t j)) r then
      t.set j (entSetDown1 (getCell t j) s)
    else t
  else if entEqPtr (getCell t j) r then
    t.set j (.ptr s)
  else t

/-- Control labels of the `rtArtAllot` state machine. -/
inductive APhase where
  | fringe | nonFringe | moveOn | moveUp
deriving DecidableEq, Repr

/-- One transition of the `rtArtAllot` state machine; `Sum.inr` is the
halt (return) carrying the final heap. -/
def allotStep (k : Nat) (r s : Option Nat) (threshold : Nat) (fc : Bool) :
    Nat × APhase × List Ent → (Nat × APhase × List Ent) ⊕ List Ent
  | (j, .fringe, t) =>
      let t2 := fringeUpd fc r s t j
      if j % 2 = 1 then .inl (j, .moveUp, t2) else .inl (j + 1, .fringe, t2)
  | (j, .nonFringe, t) =>
      if entEqPtr (getCell t j) r then
        -- label startChange
        if 2 * j < threshold then .inl (2 * j, .nonFringe, t)
        else .inl (2 * j, .fringe, t)
      else .inl (j, .moveOn, t)
  | (j, .moveOn, t) =>
      if j % 2 = 1 then .inl (j, .moveUp, t) else .inl (j + 1, .nonFringe, t)
  | (j, .moveUp, t) =>
      let j2 := j / 2
      let t2 := t.set j2 (.ptr s)
      if j2 = k then .inr t2 else .inl (j2, .moveOn, t2)

/-- Run the `rtArtAllot` machine with the given fuel (returning the
current heap if fuel runs out; the adequacy of the fuel used by
`rtArtAllot` is proved below). -/
def allotRun (k : Nat) (r s : Option Nat) (threshold : Nat) (fc : Bool) :
    Nat → Nat × APhase × List Ent → List Ent
  | 0, st => st.2.2
  | f + 1, st =>
      match allotStep k r s threshold fc st with
      | .inl st2 => allotRun k r s threshold fc f st2
      | .inr t => t

/-- `rtArtAllot` (ipArt.h): the initial goto is `startChange` at `j = k`,
which doubles `j` and branches on the fringe threshold. -/
def rtArtAllot (t : List Ent) (k : Nat) (r s : Option Nat)
    (threshold : Nat) (fc : Bool) : List Ent :=
  allotRun k r s threshold fc (8 * threshold + 8)
    (if 2 * k < threshold then (2 * k, .nonFringe, t) else (2 * k, .fringe, t))

/-- The recursion that the `rtArtAllot` goto machine expands (per the
comment on `rtArtAllot` and the `allot()` description at the top of
ipArtPathComp.c): process both children of `j` — recursing at a
non-fringe child exactly when it holds `r`, applying the fringe update
at a fringe child — and then store `s` at `j` itself. -/
def allotAt (r s : Option Nat) (threshold : Nat) (fc : Bool)
    (j : Nat) (t : List Ent) : List Ent :=
  if _h0 : j = 0 then t
  else if h : 2 * j < threshold then
    let t1 := if entEqPtr (getCell t (2 * j)) r then
        allotAt r s threshold fc (2 * j) t else t
    let t2 := if entEqPtr (getCell t1 (2 * j + 1)) r then
        allotAt r s threshold fc (2 * j + 1) t1 else t1
    t2.set j (.ptr s)
  else
    let t1 := fringeUpd fc r s t (2 * j)
    let t2 := fringeUpd fc r s t1 (2 * j + 1)
    t2.set j (.ptr s)
termination_by threshold - j
decreasing_by
  · omega
  · omega

/-!
## Tables and the route store

Route records are owned by the table; a `routeEnt*` is modelled as the
index of the record in `routes`.  A fresh insertion uses the index
`routes.length` (a fresh pointer), and appends the record on success.
-/

instance : Inhabited Route := ⟨⟨[], 0, 0⟩⟩

/-- `rtTable` (ipArt.h): stride plan, root heap, route count and the
route store.  The per-call scratch arrays (`pEnt`, `pTbl`, `pPcSt`,
`pDef`) are local state of the embedded operations. -/
structure RtTable where
  psi : List StrideInfo
  nLevels : Nat
  alen : Nat
  root : Ent
  nRoutes : Int
  routes : List Route

/-- Cells of a subtable cell (empty for a route word). -/
def entCells : Ent → List Ent
  | .sub _ _ _ _ cs => cs
  | .ptr _ => []

/-- `t[-1].level`. -/
def entLevel : Ent → Nat
  | .sub l _ _ _ _ => l
  | .ptr _ => 0

/-- First bookkeeping counter of `heap[0]`: `count` (simple trie) resp.
`nRoutes` (path-compressed trie). -/
def entCnt : Ent → Int
  | .sub _ a _ _ _ => a
  | .ptr _ => 0

/-- Second bookkeeping counter of `heap[0]`: `nSubtables`
(path-compressed trie). -/
def entCnt2 : Ent → Int
  | .sub _ _ b _ _ => b
  | .ptr _ => 0

/-- Hidden address cache (path-compressed trie), `getNodeDefAddr`. -/
def entCache : Ent → List Nat
  | .sub _ _ _ ca _ => ca
  | .ptr _ => []

/-- Reading the `.ent` member of a cell as a route pointer.  On a
subtable cell this would read the tagged word as a (garbage, non-NULL)
route pointer in C; no operation embedded here reaches that case on the
states it is run on, and we return `none` there. -/
def entAsPtr : Ent → Option Nat
  | .ptr p => p
  | .sub _ _ _ _ _ => none

/-- Replace the cell array of a subtable cell. -/
def entWithCells : Ent → List Ent → Ent
  | .sub l a b ca _, cs => .sub l a b ca cs
  | .ptr p, _ => .ptr p

/-- Add `d` to the first `heap[0]` counter. -/
def entBumpCnt : Ent → Int → Ent
  | .sub l a b ca cs, d => .sub l (a + d) b ca cs
  | .ptr p, _ => .ptr p

/-- Add `d` to the `nSubtables` counter. -/
def entBumpCnt2 : Ent → Int → Ent
  | .sub l a b ca cs, d => .sub l a (b + d) ca cs
  | .ptr p, _ => .ptr p

/-- Dereference a route pointer in the store (the C code only
dereferences after a NULL check on the paths we execute). -/
def getRoute (routes : List Route) (i : Nat) : Route := routes.getD i default

/-- `rtArtInit`'s stride-plan computation: `sb`, `bo`, `sl`, `tl` per
level, accumulating the bit sum. -/
def mkPsiGo : List Nat → Nat → List StrideInfo
  | [], _ => []
  | sl :: rest, sum => ⟨sum >>> 3, sum &&& 7, sl, sum + sl⟩ :: mkPsiGo rest (sum + sl)

def mkPsi (psl : List Nat) : List StrideInfo := mkPsiGo psl 0

/-- `rtArtInsert` (ipArt.c and ipArtPathComp.c; the two copies are
identical up to the name of the `heap[0]` union member they increment,
`count` resp. `nRoutes`, which is the same machine word).  Inserts
route `rId` (with record `rv`) at index `k` of subtable `t`; returns
the returned route pointer, the updated subtable and the `pt->nRoutes`
increment. -/
def rtArtInsert (routes : List Route) (t : Ent) (k threshold : Nat)
    (fc : Bool) (rv : Route) (rId : Nat) : Option Nat × Ent × Int :=
  let cs := entCells t
  let z := getCell cs k
  let r : Option Nat := if fc && isSub z then entAsPtr (entDown1 z) else entAsPtr z
  let dup : Bool :=
    match r with
    | some rr =>
        (getRoute routes rr).plen = rv.plen &&
          cmpAddr (getRoute routes rr).dest rv.dest rv.plen
    | none => false
  if dup then (r, t, 0)
  else
    let cs2 :=
      if k < threshold then rtArtAllot cs k r (some rId) threshold fc
      else if fc && isSub z then cs.set k (entSetDown1 z (some rId))
      else cs.set k (.ptr (some rId))
    (some rId, entBumpCnt (entWithCells t cs2) 1, 1)

/-!
## Path-compressed trie (ipArtPathComp.c, and the revised copy of the
path-compressed routines)
-/

/-- `rtArtPcNewSubTable` (ipArtPathComp.c): fresh zeroed subtable with
`heap[1] = base` and the first `T[level-1]` bits of `pa` in the hidden
address cache. -/
def rtArtPcNewSubTable (psi : List StrideInfo) (level : Nat) (base : Ent)
    (pa : List Nat) : Ent :=
  let size := 1 <<< ((psi.getD level default).sl + 1)
  let cache := if level > 0 then addrCpy pa (strideLen psi (level - 1)) else []
  .sub level 0 0 cache ((List.replicate size (Ent.ptr none)).set 1 base)

/-- `insertNewSubtable` (ipArtPathComp.c): interpose a new subtable of
level `level` at slot `slotIdx` of heap `pst`, then insert the route
with `rtArtInsert`.  Returns the returned route pointer, the updated
heap `pst` and the `nRoutes` increment. -/
def insertNewSubtable (psi : List StrideInfo) (nLevels : Nat)
    (routes : List Route) (rv : Route) (rId : Nat)
    (pst : Ent) (slotIdx : Nat) (level index : Nat) : Option Nat × Ent × Int :=
  let l := rv.level
  let ent := getCell (entCells pst) slotIdx
  let flag : Bool := decide (l < nLevels - 1)
  let sl := (psi.getD l default).sl
  if isSub ent then
    -- the displaced child `ent` keeps its subtree; a new heap `nst2` of
    -- level `level` is interposed above it
    if l = level then
      -- one new subtable: the route is allotted in `nst2` itself
      let nst2 := rtArtPcNewSubTable psi level (.ptr none) rv.dest
      let (pos, off) := setStartBitPos psi 0 level
      let i := (fringeIndex (entCache ent) pos off (psi.getD level default).sl).2.2
      let nst2b := entWithCells nst2 ((entCells nst2).set 1 (getCell (entCells ent) 1))
      let entB := entWithCells ent ((entCells ent).set 1 (.ptr none))
      let nst2c := entBumpCnt2 (entWithCells nst2b ((entCells nst2b).set i entB)) 1
      let (res, nst2d, dn) := rtArtInsert routes nst2c index (1 <<< sl) flag rv rId
      (res, entWithCells pst ((entCells pst).set slotIdx nst2d), dn)
    else
      -- two new subtables: `nst` of the route's level hangs below `nst2`
      let nst2 := rtArtPcNewSubTable psi level (.ptr none) rv.dest
      let nst := rtArtPcNewSubTable psi l (.ptr none) rv.dest
      let (res, nstb, dn) := rtArtInsert routes nst index (1 <<< sl) flag rv rId
      let (posR, offR) := setStartBitPos psi 0 level
      let iR := (fringeIndex rv.dest posR offR (psi.getD level default).sl).2.2
      let nst2b := entBumpCnt2 (entWithCells nst2 ((entCells nst2).set iR nstb)) 1
      let (pos, off) := setStartBitPos psi 0 level
      let i := (fringeIndex (entCache ent) pos off (psi.getD level default).sl).2.2
      let nst2c := entWithCells nst2b ((entCells nst2b).set 1 (getCell (entCells ent) 1))
      let entB := entWithCells ent ((entCells ent).set 1 (.ptr none))
      let nst2d := entBumpCnt2 (entWithCells nst2c ((entCells nst2c).set i entB)) 1
      (res, entWithCells pst ((entCells pst).set slotIdx nst2d), dn)
  else
    -- slot holds a route or is empty: one new subtable inheriting it
    let nst := rtArtPcNewSubTable psi level ent rv.dest
    let (res, nstb, dn) := rtArtInsert routes nst index (1 <<< sl) flag rv rId
    (res, entBumpCnt2 (entWithCells pst ((entCells pst).set slotIdx nstb)) 1, dn)

/-- Descent loop of `rtArtPcInsertRoute` (ipArtPathComp.c).  The fuel
bounds the loop `while (l < pt->nLevels)`; the level strictly increases
per iteration, so `nLevels + 1` fuel never runs out on a well-formed
table (`none` is the `panic` exit). -/
def rtArtPcInsertGo (psi : List StrideInfo) (nLevels : Nat)
    (routes : List Route) (rv : Route) (rId : Nat) (index : Nat) :
    Nat → Ent → Nat → Option (Option Nat × Ent × Int)
  | 0, _, _ => none
  | fuel + 1, pst, l =>
    if l < nLevels then
      let sl := (psi.getD l default).sl
      let (pos, off) := setStartBitPos psi 0 l
      let idx := (fringeIndex rv.dest pos off sl).2.2
      let ent := getCell (entCells pst) idx
      if rv.level > 0 && isSub ent then
        let l2 := entLevel ent
        let pDef := entCache ent
        let endBit := if l2 < rv.level then (psi.getD (l2 - 1) default).tl - 1
                      else (psi.getD (rv.level - 1) default).tl - 1
        let (cmp, i) := bitStrCmp pDef rv.dest 0 endBit
        if cmp = 0 then
          if rv.level > l2 then
            -- descend into the child and relink it
            match rtArtPcInsertGo psi nLevels routes rv rId index fuel ent l2 with
            | none => none
            | some (res, child2, dn) =>
                some (res, entWithCells pst ((entCells pst).set idx child2), dn)
          else if rv.level < l2 then
            some (insertNewSubtable psi nLevels routes rv rId pst idx rv.level index)
          else
            -- same level: insert into the child
            let flag : Bool := decide (l2 < nLevels - 1)
            let (res, child2, dn) :=
              rtArtInsert routes ent index (1 <<< (psi.getD l2 default).sl) flag rv rId
            some (res, entWithCells pst ((entCells pst).set idx child2), dn)
        else
          let nl := firstDiffLevel psi i pDef rv.dest
          if nl < l2 then
            some (insertNewSubtable psi nLevels routes rv rId pst idx nl index)
          else
            -- nl = l2: duplicate check on the child default, else descend
            match entAsPtr (getCell (entCells ent) 1) with
            | some d =>
                if (getRoute routes d).plen = rv.plen then some (some d, pst, 0)
                else
                  match rtArtPcInsertGo psi nLevels routes rv rId index fuel ent l2 with
                  | none => none
                  | some (res, child2, dn) =>
                      some (res, entWithCells pst ((entCells pst).set idx child2), dn)
            | none =>
                match rtArtPcInsertGo psi nLevels routes rv rId index fuel ent l2 with
                | none => none
                | some (res, child2, dn) =>
                    some (res, entWithCells pst ((entCells pst).set idx child2), dn)
      else
        let nl := rv.level
        if nl = l then
          let flag : Bool := decide (l < nLevels - 1)
          some (rtArtInsert routes pst index (1 <<< sl) flag rv rId)
        else
          some (insertNewSubtable psi nLevels routes rv rId pst idx nl index)
    else none

/-- `rtArtPcInsertRoute` (ipArtPathComp.c).  The caller's freshly
allocated route record is `(dest, plen)`; its `level` field is set by
the function.  On success the record is appended to the store (the
table owns it); on a duplicate the existing pointer is returned and the
caller keeps (and frees) the record, so the store is unchanged. -/
def rtArtPcInsertRoute (pt : RtTable) (dest : List Nat) (plen : Nat) :
    Option Nat × RtTable :=
  let lv := plen2level pt.psi plen
  let rv : Route := ⟨dest, plen, lv⟩
  let rId := pt.routes.length
  if plen = 0 then
    match entAsPtr (getCell (entCells pt.root) 1) with
    | some e => (some e, pt)
    | none =>
        (some rId,
          { pt with
            root := entWithCells pt.root ((entCells pt.root).set 1 (.ptr (some rId)))
            nRoutes := pt.nRoutes + 1
            routes := pt.routes ++ [rv] })
  else
    let index := baseIndex pt.psi dest plen
    match rtArtPcInsertGo pt.psi pt.nLevels pt.routes rv rId index
        (pt.nLevels + 1) pt.root 0 with
    | none => (none, pt)
    | some (res, root2, dn) =>
        (res,
          { pt with
            root := root2
            nRoutes := pt.nRoutes + dn
            routes := if res = some rId then pt.routes ++ [rv] else pt.routes })

/-- Undefined behaviour markers for the lookup functions: dereferencing
a NULL route pointer, reading the members of a route through a word
that is actually a subtable pointer, and running out of loop fuel
(never reached on well-formed tables). -/
inductive Bug where
  | derefNullRoute | subtableWordAsRoute | noFuel
deriving DecidableEq, Repr

/-- `cmpAddr(pDest, ent.ent->dest, ent.ent->plen)` on an arbitrary cell
word `ent`: faulting when the route record cannot be read. -/
def cmpAddrOfEnt (routes : List Route) (dest : List Nat) (ent : Ent) :
    Except Bug Bool :=
  match ent with
  | .ptr none => .error .derefNullRoute
  | .ptr (some i) =>
      .ok (cmpAddr dest (getRoute routes i).dest (getRoute routes i).plen)
  | .sub _ _ _ _ _ => .error .subtableWordAsRoute

/-- How the descent loop of `rtArtPcFindMatch` was left: `brk` is the
`break` (or normal loop exit) into the code after the loop, carrying
the last examined cell and the remembered default; `addr` is the
`goto AddrComp`, which skips the `pDefRoute` check. -/
inductive FmExit where
  | brk : Ent → Option Nat → FmExit
  | addr : Ent → FmExit

/-- Descent loop of `rtArtPcFindMatch` (ipArtPathComp.c), carrying the
single remembered subtable default route `pDefRoute`. -/
def rtArtPcFindMatchGo (psi : List StrideInfo) (ml : Nat) (dest : List Nat) :
    Nat → Ent → Option Nat → Except Bug FmExit
  | 0, _, _ => .error .noFuel
  | fuel + 1, pst, pDefRoute =>
    let l := entLevel pst
    if l ≤ ml then
      let idx :=
        let (pos, off) := setStartBitPos psi 0 l
        (fringeIndex dest pos off (psi.getD l default).sl).2.2
      match getCell (entCells pst) idx with
      | .ptr none => .ok (.brk (.ptr none) pDefRoute)
      | .ptr (some e) => .ok (.addr (.ptr (some e)))
      | .sub l2 a b ca cs =>
          let pDef2 := match entAsPtr (getCell cs 1) with
            | some d => some d
            | none => pDefRoute
          rtArtPcFindMatchGo psi ml dest fuel (.sub l2 a b ca cs) pDef2
    else .ok (.brk (.ptr none) pDefRoute)

/-- `rtArtPcFindMatch` (ipArtPathComp.c): the longest-prefix match of
the path-compressed trie.  After the loop, a missing remembered default
returns the table default `root[1]`; otherwise control falls into
`AddrComp`, which compares the address against the fields of the last
examined cell — also when that cell is empty (the NULL dereference this
development exhibits). -/
def rtArtPcFindMatch (pt : RtTable) (dest : List Nat) : Except Bug (Option Nat) :=
  let ml := pt.nLevels - 1
  let root1 := entAsPtr (getCell (entCells pt.root) 1)
  match rtArtPcFindMatchGo pt.psi ml dest (pt.nLevels + 1) pt.root none with
  | .error b => .error b
  | .ok (.brk ent pDefRoute) =>
      match pDefRoute with
      | none => .ok root1
      | some _ =>
          (cmpAddrOfEnt pt.routes dest ent).bind fun m =>
            if m then .ok (entAsPtr ent) else .ok root1
  | .ok (.addr ent) =>
      (cmpAddrOfEnt pt.routes dest ent).bind fun m =>
        if m then .ok (entAsPtr ent) else .ok root1

/-- The `AddrComp` climb of `rtArtPcFindExactMatch` (the revised
path-compressed source): walk `index` up the heap `pst`, returning the
route whose `plen` and address match, the table default on an empty
cell or when the climb reaches index 0. -/
def pcExactAddrComp (routes : List Route) (root1 : Option Nat)
    (pstCells : List Ent) (dest : List Nat) (plen : Nat) :
    Nat → Ent → Nat → Except Bug (Option Nat)
  | 0, _, _ => .error .noFuel
  | _ + 1, _, 0 => .ok root1
  | fuel + 1, ent, Nat.succ im =>
      match ent with
      | .ptr none => .ok root1
      | .ptr (some i) =>
          if (getRoute routes i).plen = plen &&
              cmpAddr dest (getRoute routes i).dest (getRoute routes i).plen then
            .ok (some i)
          else
            let idx2 := (Nat.succ im) >>> 1
            pcExactAddrComp routes root1 pstCells dest plen fuel
              (getCell pstCells idx2) idx2
      | .sub _ _ _ _ _ => .error .subtableWordAsRoute

/-- Descent loop of `rtArtPcFindExactMatch` (the revised path-compressed
source).  On a normal loop exit (the current heap's level exceeds the
target level, which happens when path compression skipped the target
level) the stale index and the untagged subtable word flow into
`AddrComp`, faithfully to the source. -/
def rtArtPcFindExactMatchGo (psi : List StrideInfo) (routes : List Route)
    (root1 : Option Nat) (ml : Nat) (dest : List Nat) (plen : Nat) :
    Nat → Ent → Ent → Nat → Except Bug (Option Nat)
  | 0, _, _, _ => .error .noFuel
  | fuel + 1, pst, entPrev, indexPrev =>
    let l := entLevel pst
    if l ≤ ml then
      let index :=
        let (pos, off) := setStartBitPos psi 0 l
        (fringeIndex dest pos off (psi.getD l default).sl).2.2
      match getCell (entCells pst) index with
      | .ptr none => .ok root1
      | .ptr (some e) =>
          pcExactAddrComp routes root1 (entCells pst) dest plen (index + 1) (.ptr (some e)) index
      | .sub l2 a b ca cs =>
          if l = ml then
            -- `ent.ent = subtablePtr(ent).down[1].ent; break`
            pcExactAddrComp routes root1 (entCells pst) dest plen (index + 1) (getCell cs 1) index
          else
            rtArtPcFindExactMatchGo psi routes root1 ml dest plen fuel
              (.sub l2 a b ca cs) (.sub l2 a b ca cs) index
    else
      -- normal loop exit: `AddrComp` with the stale cell and index
      pcExactAddrComp routes root1 (entCells pst) dest plen (indexPrev + 1) entPrev indexPrev

/-- `rtArtPcFindExactMatch` (the revised path-compressed source): exact
match on the path-compressed trie. -/
def rtArtPcFindExactMatch (pt : RtTable) (dest : List Nat) (plen : Nat) :
    Except Bug (Option Nat) :=
  let ml := plen2level pt.psi plen
  let root1 := entAsPtr (getCell (entCells pt.root) 1)
  rtArtPcFindExactMatchGo pt.psi pt.routes root1 ml dest plen
    (pt.nLevels + 1) pt.root (.ptr none) 0

/-- `findSubtable` (ipArtPathComp.c): the first subtable cell in the
fringe range of `t`. -/
def findSubtable (psi : List StrideInfo) (t : Ent) : Option Ent :=
  let i0 := 1 <<< (psi.getD (entLevel t) default).sl
  (List.range i0).findSome? fun d =>
    match getCell (entCells t) (i0 + d) with
    | .sub l a b ca cs => some (.sub l a b ca cs)
    | .ptr _ => none

/-- The arguments of the slot update that `rtArtPcDelete` performs after
its collapse walk (`k`, the fringe threshold and `fringeCheck` of the
target level, the replacement route `s`, and the deleted route
`save`). -/
structure PcPending where
  save : Nat
  k : Nat
  threshold : Nat
  fc : Bool
  s : Option Nat

/-- State of the collapse walk of `rtArtPcDelete` as it unwinds:
`stopped` carries the fully updated subtree once the walk has stopped;
`freed` says the child heap was freed and carries the value for the
parent's slot, whether the parent's `nSubtables` is decremented, and
the freed heap's `heap[1]` (the running `r` of the source). -/
inductive PcWalk where
  | stopped : Ent → PcWalk
  | freed : Ent → Bool → Option Nat → PcWalk

inductive PcDelRes where
  | notFound
  | found : PcWalk → PcPending → PcDelRes

/-- The slot update of `rtArtPcDelete` applied at the heap holding the
deleted route (where the cell `z = t[k]` is re-read). -/
def pcApplyFresh (t : Ent) (p : PcPending) : Ent :=
  let cs := entCells t
  let z := getCell cs p.k
  if p.k < p.threshold then
    entWithCells t (rtArtAllot cs p.k (some p.save) p.s p.threshold p.fc)
  else if p.fc && isSub z then
    entWithCells t (cs.set p.k (entSetDown1 z p.s))
  else
    entWithCells t (cs.set p.k (.ptr p.s))

/-- The same slot update applied where the walk stopped after freeing
heaps (only reached when the last freed heap's default equals the
deleted route, which never happens on the states this development
runs).  The subtable branch writes through a cell saved from the freed
heap and has no representable effect here. -/
def pcApplyStale (t : Ent) (p : PcPending) : Ent :=
  let cs := entCells t
  let z := getCell cs p.k
  if p.k < p.threshold then
    entWithCells t (rtArtAllot cs p.k (some p.save) p.s p.threshold p.fc)
  else if p.fc && isSub z then t
  else entWithCells t (cs.set p.k (.ptr p.s))

/-- One collapse step of `rtArtPcDelete` on heap `h` (whose `nRoutes`
is `≤ 0` and `nSubtables ≤ 1`): with one child, the child inherits
`h[1]` and replaces `h` in the grandparent slot; with none, the slot
becomes the route word `h[1]` and the grandparent's `nSubtables`
drops. -/
def pcCollapse (psi : List StrideInfo) (h : Ent) : PcWalk :=
  let h1 := entAsPtr (getCell (entCells h) 1)
  if entCnt2 h = 1 then
    match findSubtable psi h with
    | some pstx =>
        .freed (.sub (entLevel pstx) (entCnt pstx) (entCnt2 pstx) (entCache pstx)
          ((entCells pstx).set 1 (.ptr h1))) false h1
    | none => .stopped h   -- `findSubtable` cannot fail when nSubtables = 1
  else
    .freed (.ptr h1) true h1

/-- Deletion core of `rtArtPcDelete` at the target heap `t`: match
check, count decrements, and the start of the collapse walk.
`isRoot` says `t` is the bottom record of the descent (the root), where
the collapse walk cannot run. -/
def pcDelCore (psi : List StrideInfo) (nLevels : Nat) (routes : List Route)
    (t : Ent) (pEnt : Option Nat) (l : Nat) (dest : List Nat) (plen : Nat)
    (isRoot : Bool) : PcDelRes :=
  let k := baseIndex psi dest plen
  let threshold := 1 <<< (psi.getD l default).sl
  let fc : Bool := decide (l < nLevels - 1)
  let z := getCell (entCells t) k
  let r : Option Nat := match pEnt with
    | some e => some e
    | none => entAsPtr z
  match r with
  | none => .notFound
  | some rr =>
      if ¬((getRoute routes rr).plen = plen ∧
            cmpAddr (getRoute routes rr).dest dest plen) then .notFound
      else
        let t2 := entBumpCnt t (-1)
        let s : Option Nat :=
          if k >>> 1 > 1 then entAsPtr (getCell (entCells t) (k >>> 1)) else none
        let pend : PcPending := ⟨rr, k, threshold, fc, s⟩
        if isRoot then .found (.stopped (pcApplyFresh t2 pend)) pend
        else if entCnt t2 > 0 ∨ entCnt2 t2 > 1 then
          .found (.stopped (pcApplyFresh t2 pend)) pend
        else .found (pcCollapse psi t2) pend

/-- How a parent heap absorbs the walk result of its child's subtree
(the unwinding of the `while (pPcSt > pt->pPcSt)` loop of
`rtArtPcDelete`). -/
def pcAbsorb (psi : List StrideInfo) (pst : Ent) (idx : Nat) (isRoot : Bool)
    (w : PcWalk) (pend : PcPending) : PcDelRes :=
  match w with
  | .stopped child2 =>
      .found (.stopped (entWithCells pst ((entCells pst).set idx child2))) pend
  | .freed slotEnt decSub rLast =>
      let pst2 := entWithCells pst ((entCells pst).set idx slotEnt)
      let pst3 := if decSub then entBumpCnt2 pst2 (-1) else pst2
      if isRoot ∨ entCnt pst3 > 0 ∨ entCnt2 pst3 > 1 then
        let pst4 :=
          if rLast = some pend.save then pcApplyStale pst3 pend else pst3
        .found (.stopped pst4) pend
      else .found (pcCollapse psi pst3) pend

/-- Descent loop of `rtArtPcDeleteRoute` combined with the walk of
`rtArtPcDelete`, as a recursion over the recorded path.  `pEnt` is the
carried subtable-default candidate of the descent. -/
def pcDelGo (psi : List StrideInfo) (nLevels : Nat) (routes : List Route)
    (ml : Nat) (dest : List Nat) (plen : Nat) :
    Nat → Ent → Option Nat → Bool → Option PcDelRes
  | 0, _, _, _ => none
  | fuel + 1, pst, pEnt, isRoot =>
    let l := entLevel pst
    if l ≤ ml then
      let idx :=
        let (pos, off) := setStartBitPos psi 0 l
        (fringeIndex dest pos off (psi.getD l default).sl).2.2
      match getCell (entCells pst) idx with
      | .sub l2 a b ca cs =>
          let c1 := entAsPtr (getCell cs 1)
          let pEnt2 := match c1 with
            | some d => if (getRoute routes d).plen = plen then some d else pEnt
            | none => pEnt
          if c1 ≠ none ∧ l = ml then
            some (pcDelCore psi nLevels routes pst pEnt2 l dest plen isRoot)
          else
            match pcDelGo psi nLevels routes ml dest plen fuel
                (.sub l2 a b ca cs) pEnt2 false with
            | none => none
            | some .notFound => some .notFound
            | some (.found w pend) => some (pcAbsorb psi pst idx isRoot w pend)
      | .ptr _ =>
          if l < ml then some .notFound
          else some (pcDelCore psi nLevels routes pst pEnt l dest plen isRoot)
    else some .notFound

/-- `rtArtPcDeleteRoute` (ipArtPathComp.c).  The `plen = 0` branch of
this copy clears the table default and returns `true` without checking
that a default route is present (`rtArtFreeRoute(NULL)` only prints a
message). -/
def rtArtPcDeleteRoute (pt : RtTable) (dest : List Nat) (plen : Nat) :
    Bool × RtTable :=
  if plen = 0 then
    (true,
      { pt with
        root := entWithCells pt.root ((entCells pt.root).set 1 (.ptr none))
        nRoutes := pt.nRoutes - 1 })
  else
    let ml := plen2level pt.psi plen
    match pcDelGo pt.psi pt.nLevels pt.routes ml dest plen
        (pt.nLevels + 1) pt.root none true with
    | none => (false, pt)
    | some .notFound => (false, pt)
    | some (.found w _) =>
        match w with
        | .stopped root2 => (true, { pt with root := root2, nRoutes := pt.nRoutes - 1 })
        | .freed _ _ _ => (true, pt)   -- unreachable: the root is never freed

/-!
## Simple (dense) trie (ipArt.c)
-/

/-- `rtArtNewSubTable` (ipArt.c): fresh zeroed heap of the given level
with `heap[1] = base`. -/
def rtArtNewSubTable (psi : List StrideInfo) (level : Nat) (base : Ent) : Ent :=
  let size := 1 <<< ((psi.getD level default).sl + 1)
  .sub level 0 0 [] ((List.replicate size (Ent.ptr none)).set 1 base)

/-- Descent loop of `rtArtInsertRoute` (ipArt.c): walk fringe slots,
promoting non-subtable slots to fresh child heaps (inheriting the slot
into the child's `heap[1]` and bumping the parent's `count`), until the
level of the inserted prefix is reached.  Returns the returned pointer,
the updated subtree, the `nRoutes` increment, and the level stored into
the route record. -/
def rtArtInsertRouteGo (psi : List StrideInfo) (nLevels : Nat)
    (routes : List Route) (rv : Route) (rId : Nat) (index : Nat) :
    Nat → Ent → Nat → Nat → Bool → Nat → Nat →
    Option (Option Nat × Ent × Int × Nat)
  | 0, _, _, _, _, _, _ => none
  | fuel + 1, pst, l, len, flag, pos, off =>
    if rv.plen ≤ len then
      let (res, pst2, dn) :=
        rtArtInsert routes pst index (1 <<< (psi.getD l default).sl) flag
          { rv with level := l } rId
      some (res, pst2, dn, l)
    else
      let (pos2, off2, idx) := fringeIndex rv.dest pos off (psi.getD l default).sl
      let ent := getCell (entCells pst) idx
      let (child, pstUp) :=
        if isSub ent then (ent, pst)
        else
          (rtArtNewSubTable psi (l + 1) ent, entBumpCnt pst 1)
      if l + 1 ≥ nLevels then none     -- panic
      else
        let flag2 := if l + 1 ≥ nLevels - 1 then false else flag
        match rtArtInsertRouteGo psi nLevels routes rv rId index fuel child
            (l + 1) (len + (psi.getD (l + 1) default).sl) flag2 pos2 off2 with
        | none => none
        | some (res, child2, dn, lset) =>
            some (res, entWithCells pstUp ((entCells pstUp).set idx child2), dn, lset)

/-- `rtArtInsertRoute` (ipArt.c): insert into the simple trie.  The
route record's `level` field is set at the target level; the record is
appended to the store on success. -/
def rtArtInsertRoute (pt : RtTable) (dest : List Nat) (plen : Nat) :
    Option Nat × RtTable :=
  let rv : Route := ⟨dest, plen, 0⟩
  let rId := pt.routes.length
  if plen = 0 then
    match entAsPtr (getCell (entCells pt.root) 1) with
    | some e => (some e, pt)
    | none =>
        (some rId,
          { pt with
            root := entWithCells pt.root ((entCells pt.root).set 1 (.ptr (some rId)))
            nRoutes := pt.nRoutes + 1
            routes := pt.routes ++ [rv] })
  else
    let index := baseIndex pt.psi dest plen
    match rtArtInsertRouteGo pt.psi pt.nLevels pt.routes rv rId index
        (pt.nLevels + 1) pt.root 0 ((pt.psi.getD 0 default).sl) true 0 0 with
    | none => (none, pt)
    | some (res, root2, dn, lset) =>
        (res,
          { pt with
            root := root2
            nRoutes := pt.nRoutes + dn
            routes := if res = some rId then pt.routes ++ [{ rv with level := lset }]
                      else pt.routes })

/-- Walk state of the `while (l-- >= 0)` cascade of `rtArtDelete`
(ipArt.c): `stopped` carries the fully updated subtree; `freed` says
the heap was freed and carries its `heap[1]` (restored into the parent
slot, and the running `r` of the source). -/
inductive SWalk where
  | stopped : Ent → SWalk
  | freed : Option Nat → SWalk

inductive SDelRes where
  | notFound
  | found : SWalk → PcPending → SDelRes

/-- Deletion core of `rtArtDelete` (ipArt.c) at the target heap `t` of
level `l`. -/
def sDelCore (routes : List Route) (t : Ent)
    (k threshold : Nat) (fc : Bool) (dest : List Nat) (plen : Nat) (l : Nat) :
    SDelRes :=
  let z := getCell (entCells t) k
  let r : Option Nat := if fc && isSub z then entAsPtr (entDown1 z) else entAsPtr z
  match r with
  | none => .notFound
  | some rr =>
      if ¬((getRoute routes rr).plen = plen ∧
            cmpAddr (getRoute routes rr).dest dest plen) then .notFound
      else
        let s : Option Nat :=
          if k >>> 1 > 1 then entAsPtr (getCell (entCells t) (k >>> 1)) else none
        let pend : PcPending := ⟨rr, k, threshold, fc, s⟩
        let t2 := entBumpCnt t (-1)
        if entCnt t2 > 0 then .found (.stopped (pcApplyFresh t2 pend)) pend
        else if l = 0 then .found (.stopped (pcApplyFresh t2 pend)) pend
        else .found (.freed (entAsPtr (getCell (entCells t2) 1))) pend

/-- A parent heap of the simple trie absorbing its child's walk result:
on a freed child, restore the child's `heap[1]` into the slot,
decrement `count`, and continue the cascade. -/
def sAbsorb (pst : Ent) (idx : Nat) (l : Nat) (w : SWalk) (pend : PcPending) :
    SDelRes :=
  match w with
  | .stopped child2 =>
      .found (.stopped (entWithCells pst ((entCells pst).set idx child2))) pend
  | .freed rt =>
      let pst2 := entBumpCnt (entWithCells pst ((entCells pst).set idx (.ptr rt))) (-1)
      if entCnt pst2 > 0 ∨ l = 0 then
        let pst3 := if rt = some pend.save then pcApplyStale pst2 pend else pst2
        .found (.stopped pst3) pend
      else .found (.freed (entAsPtr (getCell (entCells pst2) 1))) pend

/-- Descent loop of `rtArtDeleteRoute` (ipArt.c) combined with the
cascade of `rtArtDelete`. -/
def sDelGo (psi : List StrideInfo) (nLevels : Nat) (routes : List Route)
    (index : Nat) (dest : List Nat) (plen : Nat) :
    Nat → Ent → Nat → Nat → Bool → Nat → Nat → Option SDelRes
  | 0, _, _, _, _, _, _ => none
  | fuel + 1, pst, l, len, flag, pos, off =>
    if plen ≤ len then
      some (sDelCore routes pst index (1 <<< (psi.getD l default).sl) flag
        dest plen l)
    else
      let (pos2, off2, idx) := fringeIndex dest pos off (psi.getD l default).sl
      match getCell (entCells pst) idx with
      | .sub l2 a b ca cs =>
          if l + 1 ≥ nLevels then none   -- panic
          else
            let flag2 := if l + 1 ≥ nLevels - 1 then false else flag
            match sDelGo psi nLevels routes index dest plen fuel
                (.sub l2 a b ca cs) (l + 1) (len + (psi.getD (l + 1) default).sl)
                flag2 pos2 off2 with
            | none => none
            | some .notFound => some .notFound
            | some (.found w pend) => some (sAbsorb pst idx l w pend)
      | .ptr _ => some .notFound

/-- `rtArtDeleteRoute` (ipArt.c): delete from the simple trie.  The
`plen = 0` branch decrements `nRoutes` and clears `root[1]` before
checking whether a default route was present at all. -/
def rtArtDeleteRoute (pt : RtTable) (dest : List Nat) (plen : Nat) :
    Bool × RtTable :=
  if plen = 0 then
    let pEnt := entAsPtr (getCell (entCells pt.root) 1)
    let pt2 :=
      { pt with
        root := entWithCells pt.root ((entCells pt.root).set 1 (.ptr none))
        nRoutes := pt.nRoutes - 1 }
    match pEnt with
    | none => (false, pt2)
    | some _ => (true, pt2)
  else
    match sDelGo pt.psi pt.nLevels pt.routes (baseIndex pt.psi dest plen)
        dest plen (pt.nLevels + 1) pt.root 0 ((pt.psi.getD 0 default).sl) true 0 0 with
    | none => (false, pt)
    | some .notFound => (false, pt)
    | some (.found w _) =>
        match w with
        | .stopped root2 => (true, { pt with root := root2, nRoutes := pt.nRoutes - 1 })
        | .freed _ => (true, pt)   -- unreachable: the root is never freed

/-!
## Depth-first walk (`rtArtDFwalk`, ipArt.c)

The walk is a stack machine: each stack node holds a heap, a direction
and a start index; inside a heap the inner do-while loop advances the
index through the heap in depth-first order.  The callback is modelled
as appending the visited route pointer to an accumulator list.
-/

/-- Stack frame of `rtArtDFwalk`. -/
structure DfFrame where
  p : Ent
  dirUp : Bool
  idx : Nat

/-- The `for (j = pt->psi[l].sl; i < (1 << j); --j);` recomputation of
the prefix-length offset of index `i`. -/
def dfJ (i : Nat) : Nat → Nat
  | 0 => 0
  | j + 1 => if i < (1 <<< (j + 1)) then dfJ i j else j + 1

/-- Inner do-while loop of `rtArtDFwalk` over one heap: visits the cell
at `i` when moving down, pushes two frames and breaks out on a subtable
cell, and otherwise advances `(i, dir, plen)` until `i` returns to 1.
Returns the accumulated callback list and the stack. -/
def dfwInner (routes : List Route) (p : Ent) (threshold : Nat) :
    Nat → Nat → Bool → Int → List Nat → List DfFrame → List Nat × List DfFrame
  | 0, _, _, _, acc, stack => (acc, stack)
  | fuel + 1, i, dirUp, plen, acc, stack =>
    let step : (List Nat × List DfFrame) ⊕ (List Nat) :=
      if ¬dirUp then
        match getCell (entCells p) i with
        | .sub _ _ _ _ cs =>
            let acc2 := match entAsPtr (getCell cs 1) with
              | some e => if ((getRoute routes e).plen : Int) = plen then acc ++ [e]
                          else acc
              | none => acc
            let cont : DfFrame :=
              if i % 2 = 1 then ⟨p, true, i >>> 1⟩ else ⟨p, false, i + 1⟩
            .inl (acc2, ⟨getCell (entCells p) i, false, 1⟩ :: cont :: stack)
        | .ptr pp =>
            match pp with
            | some e =>
                if i > 1 && ((getRoute routes e).plen : Int) ≥ plen then
                  .inr (acc ++ [e])
                else .inr acc
            | none => .inr acc
      else .inr acc
    match step with
    | .inl r => r                       -- goto endWhile
    | .inr acc2 =>
        -- advance the index
        let (i2, dirUp2, plen2) :=
          if i < threshold then
            if dirUp then
              if i % 2 = 1 then (i >>> 1, true, plen - 1)
              else (i + 1, false, plen)
            else (i <<< 1, dirUp, plen + 1)
          else
            if i % 2 = 1 then (i >>> 1, true, plen - 1)
            else (i + 1, dirUp, plen)
        if i2 = 1 then (acc2, stack)
        else dfwInner routes p threshold fuel i2 dirUp2 plen2 acc2 stack

/-- Outer loop of `rtArtDFwalk`: pop a frame, recompute `threshold` and
the prefix-length offset, and run the inner loop. -/
def dfwOuter (psi : List StrideInfo) (routes : List Route) :
    Nat → List DfFrame → List Nat → List Nat
  | 0, _, acc => acc
  | _, [], acc => acc
  | fuel + 1, fr :: stack, acc =>
      let l := entLevel fr.p
      let threshold := 1 <<< (psi.getD l default).sl
      let plen0 : Int := ((psi.getD l default).tl : Int) - ((psi.getD l default).sl : Int)
      let plen : Int :=
        if fr.idx > 1 then plen0 + (dfJ fr.idx (psi.getD l default).sl : Int)
        else plen0
      let (acc2, stack2) :=
        dfwInner routes fr.p threshold (8 * threshold + 8) fr.idx fr.dirUp plen
          acc stack
      dfwOuter psi routes fuel stack2 acc2

/-- `rtArtDFwalk` (ipArt.c): depth-first walk from heap `p`, returning
the route pointers passed to the callback, in order. -/
def rtArtDFwalk (pt : RtTable) (p : Ent) : List Nat :=
  dfwOuter pt.psi pt.routes (64 * (pt.nRoutes.toNat + pt.routes.length + 4))
    [⟨p, false, 1⟩] []

/-- `rtArtWalkBaseIndices` (ipArt.c): visit the non-fringe indices
`2 .. 2^sl - 1` of one heap, reporting routes whose `plen` equals the
prefix length of their index. -/
def rtArtWalkBaseIndices (psi : List StrideInfo) (routes : List Route)
    (p : Ent) : List Nat :=
  let l := entLevel p
  let maxI := 1 <<< (psi.getD l default).sl
  let plen0 := if l = 0 then 0 else (psi.getD (l - 1) default).tl + 1
  (List.range maxI).foldl
    (fun acc i =>
      if i < 2 then acc
      else
        let plen := plen0 + (dfJ i (psi.getD l default).sl) - 1
        match entAsPtr (getCell (entCells p) i) with
        | some e => if (getRoute routes e).plen = plen then acc ++ [e] else acc
        | none => acc)
    []

/-- One dequeued step of `rtArtBFwalk` (ipArt.c): the non-fringe
indices of the heap, then the fringe indices, reporting pushed-down
defaults of subtable cells and enqueueing the children. -/
def bfwStep (psi : List StrideInfo) (routes : List Route) (p : Ent) :
    List Nat × List Ent :=
  let l := entLevel p
  let i0 := 1 <<< (psi.getD l default).sl
  let plen := (psi.getD l default).tl
  let base := rtArtWalkBaseIndices psi routes p
  (List.range i0).foldl
    (fun (st : List Nat × List Ent) d =>
      let (acc, q) := st
      match getCell (entCells p) (i0 + d) with
      | .sub l2 a b ca cs =>
          let acc2 := match entAsPtr (getCell cs 1) with
            | some e => if (getRoute routes e).plen = plen then acc ++ [e] else acc
            | none => acc
          (acc2, q ++ [.sub l2 a b ca cs])
      | .ptr (some e) =>
          (if (getRoute routes e).plen = plen then acc ++ [e] else acc, q)
      | .ptr none => (acc, q))
    (base, [])

/-- Queue loop of `rtArtBFwalk`. -/
def bfwGo (psi : List StrideInfo) (routes : List Route) :
    Nat → List Ent → List Nat → List Nat
  | 0, _, acc => acc
  | _, [], acc => acc
  | fuel + 1, p :: q, acc =>
      let (acc2, q2) := bfwStep psi routes p
      bfwGo psi routes fuel (q ++ q2) (acc ++ acc2)

/-- `rtArtBFwalk` (ipArt.c): breadth-first walk from heap `p`. -/
def rtArtBFwalk (pt : RtTable) (p : Ent) : List Nat :=
  bfwGo pt.psi pt.routes (64 * (pt.nRoutes.toNat + pt.routes.length + 4)) [p] []

/-!
## Table construction (`rtArtInit` / `rtArtPcInit`) and concrete states

The concrete tables below use 8-bit addresses with the stride plan
`[4, 2, 2]` (three levels, `T = [4, 6, 8]`); each is built from the
empty table by the embedded public insert operations only, so each is a
reachable state of the corresponding variant.
-/

/-- `rtArtInit` with `simpleTrie`: stride plan and empty root heap. -/
def mkSimpleTable (psl : List Nat) (alen : Nat) : RtTable :=
  let psi := mkPsi psl
  ⟨psi, psl.length, alen, rtArtNewSubTable psi 0 (.ptr none), 0, []⟩

/-- `rtArtInit` with `pathCompTrie` (which tail-calls `rtArtPcInit`):
stride plan and empty root heap with a zeroed address cache. -/
def mkPcTable (psl : List Nat) (alen : Nat) : RtTable :=
  let psi := mkPsi psl
  ⟨psi, psl.length, alen,
    rtArtPcNewSubTable psi 0 (.ptr none) (List.replicate (bits2bytes alen) 0), 0, []⟩

/-- Path-compressed table holding `0xA0/4` (route 0). -/
def pcT1 : RtTable := (rtArtPcInsertRoute (mkPcTable [4, 2, 2] 8) [0xA0] 4).2

/-- Path-compressed table holding `0xA0/4` (route 0, pushed into the
level-1 child's `heap[1]`) and `0xA0/6` (route 1). -/
def pcT2 : RtTable := (rtArtPcInsertRoute pcT1 [0xA0] 6).2

/-- Path-compressed table holding only `0xA1/8` (route 0), stored in a
level-2 heap hanging directly off the root (levels 0 and 1 are
path-compressed away). -/
def pcT5 : RtTable := (rtArtPcInsertRoute (mkPcTable [4, 2, 2] 8) [0xA1] 8).2

/-- Simple-trie table holding only `0x00/2` (route 0), allotted at the
non-fringe base index 4 of the root heap. -/
def sT1 : RtTable := (rtArtInsertRoute (mkSimpleTable [4, 2, 2] 8) [0x00] 2).2

/-- Simple-trie table holding only the default route `0/0` (route 0,
stored in `root[1]`). -/
def sTd : RtTable := (rtArtInsertRoute (mkSimpleTable [4, 2, 2] 8) [0x00] 0).2

/-- Simple-trie table holding only `0x00/1` (route 0), allotted at the
non-fringe base index 2 of the root heap. -/
def sTp1 : RtTable := (rtArtInsertRoute (mkSimpleTable [4, 2, 2] 8) [0x00] 1).2

/-- Number of non-empty cells among heap indices `2 .. 2N-1` (route
words and subtable pointers both count). -/
def nonEmptyCount (t : Ent) : Nat :=
  ((entCells t).drop 2).countP fun e =>
    match e with
    | .ptr none => false
    | _ => true

/-!
## Specification vocabulary for the allotment claim

`isUnder k j` says `j` is a strict descendant of heap index `k` (its
ancestor chain `j, j/2, j/4, …` passes through `k`).  `holdsAt`
expresses "the index held `r` before the call" exactly as `rtArtAllot`
examines a cell: at a fringe index holding a subtable pointer with
`fringeCheck` set, the examined word is the child's cell 1; otherwise
it is the cell itself (a tagged subtable word never equals a route
pointer).  `chainHolds k j` says every index on the heap path from `k`
(exclusive) down to `j` (inclusive) held `r`. -/
def isUnder (k : Nat) : Nat → Bool :=
  fun j =>
    if _h : j ≤ k then false
    else (j / 2 = k) || isUnder k (j / 2)
termination_by j => j
decreasing_by omega

def holdsAt (fc : Bool) (r : Option Nat) (threshold : Nat) (t : List Ent)
    (i : Nat) : Bool :=
  if threshold ≤ i then
    if fc && isSub (getCell t i) then entEqPtr (entDown1 (getCell t i)) r
    else entEqPtr (getCell t i) r
  else entEqPtr (getCell t i) r

def chainHolds (fc : Bool) (r : Option Nat) (threshold : Nat) (t : List Ent)
    (k : Nat) : Nat → Bool :=
  fun j =>
    if _h : j ≤ k then true
    else holdsAt fc r threshold t j && chainHolds fc r threshold t k (j / 2)
termination_by j => j
decreasing_by omega

/-- The cell value `rtArtAllot` is claimed to leave at index `j`: `s`
at `k` itself; at a strict descendant inside the heap, `s` (or, for a
subtable pointer under `fringeCheck`, the child's cell 1 becomes `s`)
exactly when the path from `k` down to `j` held `r`; all other cells
keep their value. -/
def allotSpecCell (t : List Ent) (k : Nat) (r s : Option Nat)
    (threshold : Nat) (fc : Bool) (j : Nat) : Ent :=
  if j = k then .ptr s
  else if isUnder k j ∧ j < 2 * threshold then
    if chainHolds fc r threshold t k j then
      match getCell t j with
      | .sub l a b ca cs => .sub l a b ca (cs.set 1 (.ptr s))
      | .ptr _ => .ptr s
    else getCell t j
  else getCell t j

/-- The value a `chainHolds`-selected cell takes: shorthand for the
match in `allotSpecCell`. -/
def chgCell (s : Option Nat) : Ent → Ent
  | .sub l a b ca cs => .sub l a b ca (cs.set 1 (.ptr s))
  | .ptr _ => .ptr s

/-!
## The duplicate test of `rtArtInsert`, factored out

`examinedPtr`/`dupTest` name the route word `rtArtInsert` examines and
its duplicate test.  `sDupSeen`/`pcDupSeen` state that the insert
descent (of `rtArtInsertRoute` resp. `rtArtPcInsertRoute`) reaches a
heap whose examined word already stores the inserted identity — the
structural form of "the table already stores a route with this
identity" that the code itself tests.
-/

/-- The route word `rtArtInsert` examines at index `k`. -/
def examinedPtr (t : Ent) (k : Nat) (flag : Bool) : Option Nat :=
  if flag && isSub (getCell (entCells t) k) then
    entAsPtr (entDown1 (getCell (entCells t) k))
  else entAsPtr (getCell (entCells t) k)

/-- The duplicate test of `rtArtInsert`. -/
def dupTest (routes : List Route) (t : Ent) (k : Nat) (flag : Bool)
    (rv : Route) : Bool :=
  match examinedPtr t k flag with
  | some rr =>
      (getRoute routes rr).plen = rv.plen &&
        cmpAddr (getRoute routes rr).dest rv.dest rv.plen
  | none => false

/-- The descent of `rtArtInsertRoute` (simple trie) reaches the target
heap through existing subtables and finds the duplicate there. -/
def sDupSeen (psi : List StrideInfo) (nLevels : Nat) (routes : List Route)
    (rv : Route) (index : Nat) :
    Nat → Ent → Nat → Nat → Bool → Nat → Nat → Bool
  | 0, _, _, _, _, _, _ => false
  | fuel + 1, pst, l, len, flag, pos, off =>
    if rv.plen ≤ len then dupTest routes pst index flag rv
    else
      let (pos2, off2, idx) := fringeIndex rv.dest pos off (psi.getD l default).sl
      let ent := getCell (entCells pst) idx
      if isSub ent then
        if l + 1 ≥ nLevels then false
        else
          sDupSeen psi nLevels routes rv index fuel ent (l + 1)
            (len + (psi.getD (l + 1) default).sl)
            (if l + 1 ≥ nLevels - 1 then false else flag) pos2 off2
      else false

/-- The descent of `rtArtPcInsertRoute` (path-compressed trie) reaches
a heap that already stores the inserted identity: either the examined
word of an existing same-level heap, or the default route of a child
heap whose prefix length equals the inserted one (the duplicate tests
of `rtArtPcInsertRoute`). -/
def pcDupSeen (psi : List StrideInfo) (nLevels : Nat) (routes : List Route)
    (rv : Route) (index : Nat) : Nat → Ent → Nat → Bool
  | 0, _, _ => false
  | fuel + 1, pst, l =>
    if l < nLevels then
      let sl := (psi.getD l default).sl
      let (pos, off) := setStartBitPos psi 0 l
      let idx := (fringeIndex rv.dest pos off sl).2.2
      let ent := getCell (entCells pst) idx
      if rv.level > 0 && isSub ent then
        let l2 := entLevel ent
        let pDef := entCache ent
        let endBit := if l2 < rv.level then (psi.getD (l2 - 1) default).tl - 1
                      else (psi.getD (rv.level - 1) default).tl - 1
        let (cmp, _i) := bitStrCmp pDef rv.dest 0 endBit
        if cmp = 0 then
          if rv.level > l2 then pcDupSeen psi nLevels routes rv index fuel ent l2
          else if rv.level < l2 then false
          else dupTest routes ent index (decide (l2 < nLevels - 1)) rv
        else
          let nl := firstDiffLevel psi _i pDef rv.dest
          if nl < l2 then false
          else
            match entAsPtr (getCell (entCells ent) 1) with
            | some d =>
                if (getRoute routes d).plen = rv.plen then true
                else pcDupSeen psi nLevels routes rv index fuel ent l2
            | none => pcDupSeen psi nLevels routes rv index fuel ent l2
      else
        if rv.level = l then dupTest routes pst index (decide (l < nLevels - 1)) rv
        else false
    else false

theorem getCell_set_self {t : List Ent} {i : Nat} {e : Ent} (h : i < t.length) :
    getCell (t.set i e) i = e := by
  simp [getCell, List.getD, List.getElem?_set_eq_of_lt e h]

theorem getCell_set_ne {t : List Ent} {i m : Nat} {e : Ent} (h : i ≠ m) :
    getCell (t.set i e) m = getCell t m := by
  simp [getCell, List.getD, List.getElem?_set_ne h]

theorem length_fringeUpd (fc : Bool) (r s : Option Nat) (t : List Ent) (m : Nat) :
    (fringeUpd fc r s t m).length = t.length := by
  unfold fringeUpd
  split <;> [skip; split] <;> first | simp | (split <;> simp)

theorem getCell_fringeUpd_ne {fc : Bool} {r s : Option Nat} {t : List Ent}
    {m i : Nat} (h : m ≠ i) :
    getCell (fringeUpd fc r s t m) i = getCell t i := by
  unfold fringeUpd
  split
  · split
    · exact getCell_set_ne h
    · rfl
  · split
    · exact getCell_set_ne h
    · rfl

theorem isUnder_unfold (k j : Nat) :
    isUnder k j = if j ≤ k then false else ((j / 2 = k) || isUnder k (j / 2)) := by
  rw [isUnder]
  split <;> simp_all

theorem isUnder_lt {k j : Nat} (h : isUnder k j = true) : k < j := by
  rw [isUnder_unfold] at h
  by_contra hc
  simp [Nat.le_of_not_lt hc] at h

theorem isUnder_child_left {j : Nat} (h : 1 ≤ j) : isUnder j (2 * j) = true := by
  rw [isUnder_unfold]
  have h1 : ¬ 2 * j ≤ j := by omega
  have h2 : 2 * j / 2 = j := by omega
  simp [h1, h2]

theorem isUnder_child_right {j : Nat} (h : 1 ≤ j) : isUnder j (2 * j + 1) = true := by
  rw [isUnder_unfold]
  have h1 : ¬ 2 * j + 1 ≤ j := by omega
  have h2 : (2 * j + 1) / 2 = j := by omega
  simp [h1, h2]

theorem isUnder_up {k j : Nat} (hk : k < j / 2) (h : isUnder k j = true) :
    isUnder k (j / 2) = true := by
  rw [isUnder_unfold] at h
  have hlt : ¬ j ≤ k := by omega
  simp [hlt] at h
  rcases h with h | h
  · omega
  · exact h

theorem isUnder_of_parent {k j : Nat} (hk : k < j) (h : j / 2 = k ∨ isUnder k (j / 2) = true) :
    isUnder k j = true := by
  rw [isUnder_unfold]
  have hlt : ¬ j ≤ k := by omega
  simp [hlt]
  tauto

theorem isUnder_ge_two {k j : Nat} (h : isUnder k j = true) : 2 * k ≤ j := by
  rw [isUnder_unfold] at h
  by_cases hle : j ≤ k
  · simp [hle] at h
  · simp [hle] at h
    rcases h with h | h
    · omega
    · have := isUnder_lt h
      omega

/-- Each index is under exactly one of two sibling subtrees. -/
theorem isUnder_sibling_disjoint {j : Nat} (hj : 1 ≤ j) :
    ∀ m, ¬(isUnder (2 * j) m = true ∧ isUnder (2 * j + 1) m = true) := by
  intro m
  induction m using Nat.strong_induction_on with
  | _ m ih =>
    rintro ⟨h1, h2⟩
    rw [isUnder_unfold] at h1 h2
    have hm1 : ¬ m ≤ 2 * j := by
      by_contra hc; simp [hc] at h1
    have hm2 : ¬ m ≤ 2 * j + 1 := by
      by_contra hc; simp [hc] at h2
    simp [hm1] at h1
    simp [hm2] at h2
    rcases h1 with h1 | h1 <;> rcases h2 with h2 | h2
    · omega
    · have := isUnder_ge_two h2; omega
    · have := isUnder_ge_two h1; omega
    · exact ih (m / 2) (by omega) ⟨h1, h2⟩

/-- Decompose a strict descendant of `j` into the two child subtrees. -/
theorem isUnder_decompose {j m : Nat} (hj : 1 ≤ j) (h : isUnder j m = true) :
    (m = 2 * j ∨ isUnder (2 * j) m = true) ∨
    (m = 2 * j + 1 ∨ isUnder (2 * j + 1) m = true) := by
  induction m using Nat.strong_induction_on with
  | _ m ih =>
    rw [isUnder_unfold] at h
    have hm : ¬ m ≤ j := by
      by_contra hc; simp [hc] at h
    simp [hm] at h
    rcases h with h | h
    · -- m / 2 = j: m is 2j or 2j+1
      by_cases hme : m % 2 = 0
      · left; left; omega
      · right; left; omega
    · rcases ih (m / 2) (by omega) h with (h2 | h2) | (h2 | h2)
      · left; right
        exact isUnder_of_parent (by omega) (Or.inl h2)
      · left; right
        exact isUnder_of_parent (by have := isUnder_lt h2; omega) (Or.inr h2)
      · right; right
        exact isUnder_of_parent (by omega) (Or.inl h2)
      · right; right
        exact isUnder_of_parent (by have := isUnder_lt h2; omega) (Or.inr h2)

theorem isUnder_trans {k b : Nat} (hkb : isUnder k b = true) :
    ∀ i, isUnder b i = true → isUnder k i = true := by
  intro i
  induction i using Nat.strong_induction_on with
  | _ i ih =>
    intro h
    have hbi := isUnder_lt h
    have hkblt := isUnder_lt hkb
    rw [isUnder_unfold] at h
    have hle : ¬ i ≤ b := by omega
    simp [hle] at h
    rcases h with h | h
    · exact isUnder_of_parent (by omega) (Or.inr (h ▸ hkb))
    · have := ih (i / 2) (by omega) h
      exact isUnder_of_parent (by omega) (Or.inr this)

theorem chainHolds_unfold (fc : Bool) (r : Option Nat) (N : Nat) (t : List Ent)
    (k j : Nat) :
    chainHolds fc r N t k j =
      if j ≤ k then true
      else holdsAt fc r N t j && chainHolds fc r N t k (j / 2) := by
  rw [chainHolds]
  split <;> simp_all

theorem getCell_fringeUpd_self {fc : Bool} {r s : Option Nat} {t : List Ent}
    {m : Nat} (h : m < t.length) :
    getCell (fringeUpd fc r s t m) m =
      if fc && isSub (getCell t m) then
        (if entEqPtr (entDown1 (getCell t m)) r then entSetDown1 (getCell t m) s
         else getCell t m)
      else (if entEqPtr (getCell t m) r then Ent.ptr s else getCell t m) := by
  unfold fringeUpd
  split
  · split
    · simp_all [getCell_set_self h]
    · simp_all
  · split
    · simp_all [getCell_set_self h]
    · simp_all

/-- At a fringe index, `holdsAt` is exactly the condition under which
`fringeUpd` changes the examined word. -/
theorem getCell_fringeUpd_holdsAt {fc : Bool} {r s : Option Nat} {t : List Ent}
    {N m : Nat} (h : m < t.length) (hm : N ≤ m) :
    getCell (fringeUpd fc r s t m) m =
      if holdsAt fc r N t m then
        match getCell t m with
        | .sub l a b ca cs => .sub l a b ca (cs.set 1 (.ptr s))
        | .ptr _ => .ptr s
      else getCell t m := by
  rw [getCell_fringeUpd_self h]
  unfold holdsAt
  rw [if_pos hm]
  rcases hcell : getCell t m with p | ⟨l, a, b, ca, cs⟩
  · have hsub : (fc && isSub (Ent.ptr p)) = false := by simp [isSub]
    rw [hsub]
    simp only [Bool.false_eq_true, if_false]
  · cases fc with
    | false =>
        simp only [Bool.false_and, Bool.false_eq_true, if_false]
        have he : entEqPtr (Ent.sub l a b ca cs) r = false := rfl
        rw [he]
        simp
    | true =>
        have hsub : (true && isSub (Ent.sub l a b ca cs)) = true := by simp [isSub]
        rw [hsub]
        simp only [if_true]
        split <;> rfl

/-- The one-element chain from an index's parent is `holdsAt` at the
index. -/
theorem chainHolds_parent {fc : Bool} {r : Option Nat} {N : Nat} {t : List Ent}
    {m : Nat} (hm : 1 ≤ m) :
    chainHolds fc r N t (m / 2) m = holdsAt fc r N t m := by
  rw [chainHolds_unfold]
  have hnle : ¬ m ≤ m / 2 := by omega
  rw [if_neg hnle, chainHolds_unfold]
  simp

theorem length_allotAt (fc : Bool) (r s : Option Nat) (N : Nat) :
    ∀ d j t, N - j = d → (allotAt r s N fc j t).length = t.length := by
  intro d
  induction d using Nat.strong_induction_on with
  | _ d ih =>
    intro j t hd
    rw [allotAt]
    split
    · rfl
    · split
      · simp only [List.length_set]
        rename_i hj0 h2j
        have hL : ∀ t1, (if entEqPtr (getCell t1 (2 * j)) r = true then
            allotAt r s N fc (2 * j) t1 else t1).length = t1.length := by
          intro t1
          split
          · exact ih (N - 2 * j) (by omega) (2 * j) t1 rfl
          · rfl
        have hR : ∀ t1, (if entEqPtr (getCell t1 (2 * j + 1)) r = true then
            allotAt r s N fc (2 * j + 1) t1 else t1).length = t1.length := by
          intro t1
          split
          · exact ih (N - (2 * j + 1)) (by omega) (2 * j + 1) t1 rfl
          · rfl
        rw [hR, hL]
      · simp only [List.length_set, length_fringeUpd]

/-- `allotAt j` changes no cell outside `j` and its strict descendants
inside the heap. -/
theorem allotAt_outside (fc : Bool) (r s : Option Nat) (N : Nat) :
    ∀ d j t i, N - j = d → N % 2 = 0 → 1 ≤ j → j < N → i ≠ j →
      (isUnder j i = false ∨ 2 * N ≤ i) →
      getCell (allotAt r s N fc j t) i = getCell t i := by
  intro d
  induction d using Nat.strong_induction_on with
  | _ d ih =>
    intro j t i hd hNe hj hjN hne hout
    have hiL : isUnder (2 * j) i = false ∨ 2 * N ≤ i := by
      rcases hout with hout | hout
      · left
        by_contra hc
        simp only [Bool.not_eq_false] at hc
        have : isUnder j i = true :=
          isUnder_trans (isUnder_child_left hj) i hc
        simp [this] at hout
      · right; exact hout
    have hiR : isUnder (2 * j + 1) i = false ∨ 2 * N ≤ i := by
      rcases hout with hout | hout
      · left
        by_contra hc
        simp only [Bool.not_eq_false] at hc
        have : isUnder j i = true :=
          isUnder_trans (isUnder_child_right hj) i hc
        simp [this] at hout
      · right; exact hout
    have hne2L : i ≠ 2 * j := by
      intro hcontra
      rcases hout with hout | hout
      · rw [hcontra] at hout
        simp [isUnder_child_left hj] at hout
      · omega
    have hne2R : i ≠ 2 * j + 1 := by
      intro hcontra
      rcases hout with hout | hout
      · rw [hcontra] at hout
        simp [isUnder_child_right hj] at hout
      · omega
    rw [allotAt]
    split
    · rfl
    · split
      · rw [getCell_set_ne (fun h => hne h.symm)]
        rename_i hj0 h2j
        have hR : ∀ t1, getCell (if entEqPtr (getCell t1 (2 * j + 1)) r = true then
            allotAt r s N fc (2 * j + 1) t1 else t1) i = getCell t1 i := by
          intro t1
          split
          · exact ih (N - (2 * j + 1)) (by omega) (2 * j + 1) t1 i rfl hNe (by omega)
              (by omega) hne2R hiR
          · rfl
        have hL : getCell (if entEqPtr (getCell t (2 * j)) r = true then
            allotAt r s N fc (2 * j) t else t) i = getCell t i := by
          split
          · exact ih (N - 2 * j) (by omega) (2 * j) t i rfl hNe (by omega)
              (by omega) hne2L hiL
          · rfl
        rw [hR, hL]
      · rw [getCell_set_ne (fun h => hne h.symm),
          getCell_fringeUpd_ne (fun h => hne2R h.symm),
          getCell_fringeUpd_ne (fun h => hne2L h.symm)]

theorem chainHolds_le {fc : Bool} {r : Option Nat} {N : Nat} {t : List Ent}
    {k j : Nat} (h : j ≤ k) : chainHolds fc r N t k j = true := by
  rw [chainHolds_unfold]
  simp [h]

/-- `chainHolds k i` only reads the cells on the ancestor chain of `i`
above `k` (all of which are under `k`). -/
theorem chainHolds_congr (fc : Bool) (r : Option Nat) (N : Nat)
    (t1 t : List Ent) (k : Nat) :
    ∀ i, isUnder k i = true →
      (∀ m, isUnder k m = true → (m = i ∨ isUnder m i = true) →
        getCell t1 m = getCell t m) →
      chainHolds fc r N t1 k i = chainHolds fc r N t k i := by
  intro i
  induction i using Nat.strong_induction_on with
  | _ i ih =>
    intro hki h
    have hlt := isUnder_lt hki
    have hle : ¬ i ≤ k := by omega
    conv_lhs => rw [chainHolds_unfold]
    conv_rhs => rw [chainHolds_unfold]
    rw [if_neg hle, if_neg hle]
    have hcell : getCell t1 i = getCell t i := h i hki (Or.inl rfl)
    have hholds : holdsAt fc r N t1 i = holdsAt fc r N t i := by
      unfold holdsAt
      rw [hcell]
    rw [hholds]
    rw [isUnder_unfold] at hki
    rw [if_neg hle] at hki
    simp only [Bool.or_eq_true, decide_eq_true_eq] at hki
    rcases hki with hki | hki
    · rw [chainHolds_le (le_of_eq hki), chainHolds_le (le_of_eq hki)]
    · have hrec := ih (i / 2) (by omega) hki (by
        intro m hm hmi
        refine h m hm ?_
        right
        rcases hmi with hmi | hmi
        · exact isUnder_of_parent (by have := isUnder_lt hki; omega) (Or.inl hmi.symm)
        · exact isUnder_of_parent (by have := isUnder_lt hmi; omega) (Or.inr hmi))
      rw [hrec]

/-- Splitting a chain at a child `c` of `k`: for `i` in the subtree of
`c` (or `c` itself), the chain from `k` is the chain from `c` together
with the examined word at `c`. -/
theorem chainHolds_split (fc : Bool) (r : Option Nat) (N : Nat) (t : List Ent)
    {k c : Nat} (hck : c / 2 = k) (hcgt : k < c) :
    ∀ i, (i = c ∨ isUnder c i = true) →
      chainHolds fc r N t k i = (chainHolds fc r N t c i && holdsAt fc r N t c) := by
  intro i
  induction i using Nat.strong_induction_on with
  | _ i ih =>
    intro hi
    rcases hi with hi | hi
    · subst hi
      conv_lhs => rw [chainHolds_unfold]
      have hle : ¬ i ≤ k := by omega
      rw [if_neg hle, hck, chainHolds_le (Nat.le_refl k),
        chainHolds_le (Nat.le_refl i)]
      simp
    · have hci := isUnder_lt hi
      have hle1 : ¬ i ≤ k := by omega
      have hle2 : ¬ i ≤ c := by omega
      conv_lhs => rw [chainHolds_unfold]
      conv_rhs => rw [chainHolds_unfold]
      rw [if_neg hle1, if_neg hle2]
      rw [isUnder_unfold, if_neg hle2] at hi
      simp only [Bool.or_eq_true, decide_eq_true_eq] at hi
      have hrec : chainHolds fc r N t k (i / 2) =
          (chainHolds fc r N t c (i / 2) && holdsAt fc r N t c) :=
        ih (i / 2) (by omega) (by tauto)
      rw [hrec]
      cases holdsAt fc r N t i <;> cases chainHolds fc r N t c (i / 2) <;>
        cases holdsAt fc r N t c <;> rfl

theorem holdsAt_congr {fc : Bool} {r : Option Nat} {N : Nat} {t1 t : List Ent}
    {m : Nat} (h : getCell t1 m = getCell t m) :
    holdsAt fc r N t1 m = holdsAt fc r N t m := by
  unfold holdsAt
  rw [h]

theorem holdsAt_nonfringe {fc : Bool} {r : Option Nat} {N : Nat} {t : List Ent}
    {m : Nat} (h : m < N) :
    holdsAt fc r N t m = entEqPtr (getCell t m) r := by
  unfold holdsAt
  rw [if_neg (by omega)]

/-- Per-cell characterization of the recursion `allotAt`, relative to
the original heap. -/
theorem allotAt_cell (fc : Bool) (r s : Option Nat) (N : Nat) :
    ∀ d j t, N - j = d → N % 2 = 0 → 1 ≤ j → j < N → t.length = 2 * N →
      ∀ i, getCell (allotAt r s N fc j t) i =
        if i = j then .ptr s
        else if isUnder j i = true ∧ i < 2 * N then
          (if chainHolds fc r N t j i then chgCell s (getCell t i)
           else getCell t i)
        else getCell t i := by
  intro d
  induction d using Nat.strong_induction_on with
  | _ d ih =>
    intro j t hd hNe hj hjN hlen i
    have h2jd : (2 * j : Nat) / 2 = j := by omega
    have h2j1d : (2 * j + 1 : Nat) / 2 = j := by omega
    rw [allotAt]
    rw [dif_neg (by omega : ¬ j = 0)]
    by_cases h2j : 2 * j < N
    · -- inductive branch: both children are non-fringe indices
      rw [dif_pos h2j]
      have h2j1 : 2 * j + 1 < N := by omega
      set T1 := if entEqPtr (getCell t (2 * j)) r = true then
          allotAt r s N fc (2 * j) t else t with hT1
      set T2 := if entEqPtr (getCell T1 (2 * j + 1)) r = true then
          allotAt r s N fc (2 * j + 1) T1 else T1 with hT2
      have lenT1 : T1.length = 2 * N := by
        rw [hT1]; split
        · rw [length_allotAt fc r s N (N - 2 * j) (2 * j) t rfl]; exact hlen
        · exact hlen
      have lenT2 : T2.length = 2 * N := by
        rw [hT2]; split
        · rw [length_allotAt fc r s N (N - (2 * j + 1)) (2 * j + 1) T1 rfl]
          exact lenT1
        · exact lenT1
      -- cells outside the left subtree are unchanged in T1
      have faT1 : ∀ m, m ≠ 2 * j → (isUnder (2 * j) m = false ∨ 2 * N ≤ m) →
          getCell T1 m = getCell t m := by
        intro m hm1 hm2
        rw [hT1]; split
        · exact allotAt_outside fc r s N (N - 2 * j) (2 * j) t m rfl hNe
            (by omega) (by omega) hm1 hm2
        · rfl
      -- cells outside the right subtree are unchanged from T1 to T2
      have faT2 : ∀ m, m ≠ 2 * j + 1 →
          (isUnder (2 * j + 1) m = false ∨ 2 * N ≤ m) →
          getCell T2 m = getCell T1 m := by
        intro m hm1 hm2
        rw [hT2]; split
        · exact allotAt_outside fc r s N (N - (2 * j + 1)) (2 * j + 1) T1 m rfl
            hNe (by omega) (by omega) hm1 hm2
        · rfl
      have htest1 : entEqPtr (getCell t (2 * j)) r = holdsAt fc r N t (2 * j) :=
        (holdsAt_nonfringe h2j).symm
      have hT1eq : getCell T1 (2 * j + 1) = getCell t (2 * j + 1) := by
        refine faT1 (2 * j + 1) (by omega) (Or.inl ?_)
        by_contra hc
        simp only [Bool.not_eq_false] at hc
        have := isUnder_ge_two hc
        omega
      have htest2 : entEqPtr (getCell T1 (2 * j + 1)) r =
          holdsAt fc r N t (2 * j + 1) := by
        rw [hT1eq]
        exact (holdsAt_nonfringe h2j1).symm
      by_cases hij : i = j
      · subst hij
        rw [getCell_set_self (by omega : i < T2.length)]
        rw [if_pos rfl]
      · rw [getCell_set_ne (fun h => hij h.symm)]
        rw [if_neg hij]
        by_cases hin : isUnder j i = true ∧ i < 2 * N
        · rw [if_pos hin]
          rcases isUnder_decompose hj hin.1 with hL | hR
          · -- i lies in the left child subtree
            have hnotR : isUnder (2 * j + 1) i = false := by
              rcases hL with hL | hL
              · subst hL
                by_contra hc
                simp only [Bool.not_eq_false] at hc
                have := isUnder_ge_two hc; omega
              · by_contra hc
                simp only [Bool.not_eq_false] at hc
                exact isUnder_sibling_disjoint hj i ⟨hL, hc⟩
            have hneR : i ≠ 2 * j + 1 := by
              rcases hL with hL | hL
              · omega
              · have := isUnder_ge_two hL; omega
            rw [faT2 i hneR (Or.inl hnotR)]
            by_cases hh : holdsAt fc r N t (2 * j) = true
            · -- left test passes: T1 = allotAt (2j) t
              have hT1v : T1 = allotAt r s N fc (2 * j) t := by
                rw [hT1, if_pos (htest1.trans hh)]
              rw [hT1v]
              rw [ih (N - 2 * j) (by omega) (2 * j) t rfl hNe (by omega) h2j hlen i]
              rcases hL with hL | hL
              · rw [if_pos hL]
                have hid : i / 2 = j := by omega
                have hpar := @chainHolds_parent fc r N t i (by omega)
                rw [hid] at hpar
                have hch : chainHolds fc r N t j i = true := by
                  rw [hpar, hL]; exact hh
                rw [hch, if_pos rfl]
                rw [holdsAt_nonfringe h2j, ← hL] at hh
                rcases hc : getCell t i with p | ⟨l, a, b, ca, cs⟩
                · rfl
                · exfalso
                  rw [hc] at hh
                  exact absurd hh (by simp [entEqPtr])
              · have hneL : i ≠ 2 * j := by
                  have := isUnder_lt hL; omega
                rw [if_neg hneL, if_pos ⟨hL, hin.2⟩]
                have hsplit := chainHolds_split fc r N t h2jd (by omega) i
                  (Or.inr hL)
                rw [hsplit, hh, Bool.and_true]
            · -- left test fails: T1 = t, nothing in the left subtree moves
              have hhf : holdsAt fc r N t (2 * j) = false := by
                revert hh; cases holdsAt fc r N t (2 * j) <;> simp
              have hT1v : T1 = t := by
                rw [hT1, if_neg]
                rw [htest1, hhf]
                simp
              rw [hT1v]
              rcases hL with hL | hL
              · have hid : i / 2 = j := by omega
                have hpar := @chainHolds_parent fc r N t i (by omega)
                rw [hid] at hpar
                have hch : chainHolds fc r N t j i = false := by
                  rw [hpar, hL]; exact hhf
                rw [hch]
                simp
              · have hsplit := chainHolds_split fc r N t h2jd (by omega) i
                  (Or.inr hL)
                rw [hsplit, hhf, Bool.and_false]
                simp
          · -- i lies in the right child subtree
            have hnotL : isUnder (2 * j) i = false := by
              rcases hR with hR | hR
              · subst hR
                by_contra hc
                simp only [Bool.not_eq_false] at hc
                have := isUnder_ge_two hc; omega
              · by_contra hc
                simp only [Bool.not_eq_false] at hc
                exact isUnder_sibling_disjoint hj i ⟨hc, hR⟩
            have hneL : i ≠ 2 * j := by
              rcases hR with hR | hR
              · omega
              · have := isUnder_ge_two hR; omega
            have hT1i : getCell T1 i = getCell t i := faT1 i hneL (Or.inl hnotL)
            by_cases hh : holdsAt fc r N t (2 * j + 1) = true
            · rw [if_pos (htest2.trans hh)]
              rw [ih (N - (2 * j + 1)) (by omega) (2 * j + 1) T1 rfl hNe
                (by omega) h2j1 lenT1 i]
              rcases hR with hR | hR
              · rw [if_pos hR]
                have hid : i / 2 = j := by omega
                have hpar := @chainHolds_parent fc r N t i (by omega)
                rw [hid] at hpar
                have hch : chainHolds fc r N t j i = true := by
                  rw [hpar, hR]; exact hh
                rw [hch, if_pos rfl]
                rw [holdsAt_nonfringe h2j1, ← hR] at hh
                rcases hc : getCell t i with p | ⟨l, a, b, ca, cs⟩
                · rfl
                · exfalso
                  rw [hc] at hh
                  exact absurd hh (by simp [entEqPtr])
              · have hneR : i ≠ 2 * j + 1 := by
                  have := isUnder_lt hR; omega
                rw [if_neg hneR, if_pos ⟨hR, hin.2⟩]
                have hcongr : chainHolds fc r N T1 (2 * j + 1) i =
                    chainHolds fc r N t (2 * j + 1) i := by
                  refine chainHolds_congr fc r N T1 t (2 * j + 1) i hR ?_
                  intro m hm hmi
                  refine faT1 m ?_ (Or.inl ?_)
                  · have := isUnder_ge_two hm; omega
                  · by_contra hc
                    simp only [Bool.not_eq_false] at hc
                    exact isUnder_sibling_disjoint hj m ⟨hc, hm⟩
                rw [hcongr, hT1i]
                have hsplit := chainHolds_split fc r N t h2j1d (by omega) i
                  (Or.inr hR)
                rw [hsplit, hh, Bool.and_true]
            · have hhf : holdsAt fc r N t (2 * j + 1) = false := by
                revert hh; cases holdsAt fc r N t (2 * j + 1) <;> simp
              have hne : ¬ entEqPtr (getCell T1 (2 * j + 1)) r = true := by
                rw [htest2, hhf]; simp
              rw [if_neg hne, hT1i]
              rcases hR with hR | hR
              · have hid : i / 2 = j := by omega
                have hpar := @chainHolds_parent fc r N t i (by omega)
                rw [hid] at hpar
                have hch : chainHolds fc r N t j i = false := by
                  rw [hpar, hR]; exact hhf
                rw [hch]
                simp
              · have hsplit := chainHolds_split fc r N t h2j1d (by omega) i
                  (Or.inr hR)
                rw [hsplit, hhf, Bool.and_false]
                simp
        · -- i outside the subtree of j (or beyond the heap): unchanged
          rw [if_neg hin]
          have hcases : isUnder j i = false ∨ 2 * N ≤ i := by
            by_cases hu : isUnder j i = true
            · right
              rcases Nat.lt_or_ge i (2 * N) with hlt | hge
              · exact absurd ⟨hu, hlt⟩ hin
              · exact hge
            · left
              revert hu; cases isUnder j i <;> simp
          have hne2L : i ≠ 2 * j := by
            intro hcontra
            rcases hcases with hc | hc
            · rw [hcontra] at hc
              rw [isUnder_child_left hj] at hc
              cases hc
            · omega
          have hne2R : i ≠ 2 * j + 1 := by
            intro hcontra
            rcases hcases with hc | hc
            · rw [hcontra] at hc
              rw [isUnder_child_right hj] at hc
              cases hc
            · omega
          have hnuL : isUnder (2 * j) i = false ∨ 2 * N ≤ i := by
            rcases hcases with hc | hc
            · left
              by_contra hcc
              simp only [Bool.not_eq_false] at hcc
              have := isUnder_trans (isUnder_child_left hj) i hcc
              rw [this] at hc; cases hc
            · right; exact hc
          have hnuR : isUnder (2 * j + 1) i = false ∨ 2 * N ≤ i := by
            rcases hcases with hc | hc
            · left
              by_contra hcc
              simp only [Bool.not_eq_false] at hcc
              have := isUnder_trans (isUnder_child_right hj) i hcc
              rw [this] at hc; cases hc
            · right; exact hc
          rw [faT2 i hne2R hnuR, faT1 i hne2L hnuL]
    · -- base branch: the children of j are fringe indices
      rw [dif_neg h2j]
      have hlenF1 : (fringeUpd fc r s t (2 * j)).length = t.length :=
        length_fringeUpd fc r s t (2 * j)
      have hlenF2 : (fringeUpd fc r s (fringeUpd fc r s t (2 * j))
          (2 * j + 1)).length = t.length := by
        rw [length_fringeUpd, hlenF1]
      by_cases hij : i = j
      · subst hij
        rw [getCell_set_self (by omega : i < (fringeUpd fc r s
            (fringeUpd fc r s t (2 * i)) (2 * i + 1)).length)]
        rw [if_pos rfl]
      · rw [getCell_set_ne (fun h => hij h.symm), if_neg hij]
        by_cases hiL : i = 2 * j
        · rw [hiL]
          rw [getCell_fringeUpd_ne (by omega : 2 * j + 1 ≠ 2 * j)]
          rw [getCell_fringeUpd_holdsAt (by omega : 2 * j < t.length)
            (by omega : N ≤ 2 * j)]
          have hcnd : isUnder j (2 * j) = true ∧ 2 * j < 2 * N :=
            ⟨isUnder_child_left hj, by omega⟩
          rw [if_pos hcnd]
          have hch : chainHolds fc r N t j (2 * j) = holdsAt fc r N t (2 * j) := by
            have hpar := @chainHolds_parent fc r N t (2 * j) (by omega)
            rw [h2jd] at hpar
            exact hpar
          rw [hch]
          by_cases hho : holdsAt fc r N t (2 * j) = true
          · rw [if_pos hho, if_pos hho]
            rcases hc : getCell t (2 * j) with p | ⟨l, a, b, ca, cs⟩ <;> rfl
          · rw [if_neg hho, if_neg hho]
        · by_cases hiR : i = 2 * j + 1
          · rw [hiR]
            rw [getCell_fringeUpd_holdsAt (by omega : 2 * j + 1 <
              (fringeUpd fc r s t (2 * j)).length) (by omega : N ≤ 2 * j + 1)]
            have hcell : getCell (fringeUpd fc r s t (2 * j)) (2 * j + 1) =
                getCell t (2 * j + 1) :=
              getCell_fringeUpd_ne (by omega : 2 * j ≠ 2 * j + 1)
            rw [hcell, holdsAt_congr hcell]
            have hcnd : isUnder j (2 * j + 1) = true ∧ 2 * j + 1 < 2 * N :=
              ⟨isUnder_child_right hj, by omega⟩
            rw [if_pos hcnd]
            have hch : chainHolds fc r N t j (2 * j + 1) =
                holdsAt fc r N t (2 * j + 1) := by
              have hpar := @chainHolds_parent fc r N t (2 * j + 1) (by omega)
              rw [h2j1d] at hpar
              exact hpar
            rw [hch]
            by_cases hho : holdsAt fc r N t (2 * j + 1) = true
            · rw [if_pos hho, if_pos hho]
              rcases hc : getCell t (2 * j + 1) with p | ⟨l, a, b, ca, cs⟩ <;> rfl
            · rw [if_neg hho, if_neg hho]
          · rw [getCell_fringeUpd_ne (fun h => hiR h.symm),
              getCell_fringeUpd_ne (fun h => hiL h.symm)]
            have hcond : ¬ (isUnder j i = true ∧ i < 2 * N) := by
              rintro ⟨hu, hlt⟩
              rcases isUnder_decompose hj hu with (h1 | h1) | (h1 | h1)
              · exact hiL h1
              · have := isUnder_ge_two h1; omega
              · exact hiR h1
              · have := isUnder_ge_two h1; omega
            rw [if_neg hcond]

/-!
## The goto machine of `rtArtAllot` expands the recursion `allotAt`
-/

theorem allotRun_step (k : Nat) (r s : Option Nat) (N : Nat) (fc : Bool)
    (st st2 : Nat × APhase × List Ent) (h : allotStep k r s N fc st = .inl st2)
    (f : Nat) :
    allotRun k r s N fc (1 + f) st = allotRun k r s N fc f st2 := by
  rw [Nat.add_comm 1 f]
  simp only [allotRun]
  rw [h]

theorem allotRun_halt (k : Nat) (r s : Option Nat) (N : Nat) (fc : Bool)
    (st : Nat × APhase × List Ent) (tf : List Ent)
    (h : allotStep k r s N fc st = .inr tf) (f : Nat) :
    allotRun k r s N fc (1 + f) st = tf := by
  rw [Nat.add_comm 1 f]
  simp only [allotRun]
  rw [h]

theorem allotStep_nonFringe_down (k : Nat) (r s : Option Nat) (N : Nat)
    (fc : Bool) (j : Nat) (t : List Ent)
    (hc : entEqPtr (getCell t j) r = true) (h2j : 2 * j < N) :
    allotStep k r s N fc (j, .nonFringe, t) = .inl (2 * j, .nonFringe, t) := by
  simp only [allotStep]
  rw [if_pos hc, if_pos h2j]

theorem allotStep_nonFringe_downFr (k : Nat) (r s : Option Nat) (N : Nat)
    (fc : Bool) (j : Nat) (t : List Ent)
    (hc : entEqPtr (getCell t j) r = true) (h2j : ¬ 2 * j < N) :
    allotStep k r s N fc (j, .nonFringe, t) = .inl (2 * j, .fringe, t) := by
  simp only [allotStep]
  rw [if_pos hc, if_neg h2j]

theorem allotStep_nonFringe_skip (k : Nat) (r s : Option Nat) (N : Nat)
    (fc : Bool) (j : Nat) (t : List Ent)
    (hc : ¬ entEqPtr (getCell t j) r = true) :
    allotStep k r s N fc (j, .nonFringe, t) = .inl (j, .moveOn, t) := by
  simp only [allotStep]
  rw [if_neg hc]

theorem allotStep_moveOn_even (k : Nat) (r s : Option Nat) (N : Nat)
    (fc : Bool) (j : Nat) (t : List Ent) (h : j % 2 = 0) :
    allotStep k r s N fc (j, .moveOn, t) = .inl (j + 1, .nonFringe, t) := by
  simp only [allotStep]
  rw [if_neg (by omega : ¬ j % 2 = 1)]

theorem allotStep_moveOn_odd (k : Nat) (r s : Option Nat) (N : Nat)
    (fc : Bool) (j : Nat) (t : List Ent) (h : j % 2 = 1) :
    allotStep k r s N fc (j, .moveOn, t) = .inl (j, .moveUp, t) := by
  simp only [allotStep]
  rw [if_pos h]

theorem allotStep_fringe_even (k : Nat) (r s : Option Nat) (N : Nat)
    (fc : Bool) (j : Nat) (t : List Ent) (h : j % 2 = 0) :
    allotStep k r s N fc (j, .fringe, t) =
      .inl (j + 1, .fringe, fringeUpd fc r s t j) := by
  simp only [allotStep]
  rw [if_neg (by omega : ¬ j % 2 = 1)]

theorem allotStep_fringe_odd (k : Nat) (r s : Option Nat) (N : Nat)
    (fc : Bool) (j : Nat) (t : List Ent) (h : j % 2 = 1) :
    allotStep k r s N fc (j, .fringe, t) =
      .inl (j, .moveUp, fringeUpd fc r s t j) := by
  simp only [allotStep]
  rw [if_pos h]

theorem allotStep_moveUp_halt (k : Nat) (r s : Option Nat) (N : Nat)
    (fc : Bool) (j : Nat) (t : List Ent) (h : j / 2 = k) :
    allotStep k r s N fc (j, .moveUp, t) = .inr (t.set k (.ptr s)) := by
  simp only [allotStep]
  rw [h, if_pos rfl]

theorem allotStep_moveUp_cont (k : Nat) (r s : Option Nat) (N : Nat)
    (fc : Bool) (j : Nat) (t : List Ent) (h : ¬ j / 2 = k) :
    allotStep k r s N fc (j, .moveUp, t) =
      .inl (j / 2, .moveOn, t.set (j / 2) (.ptr s)) := by
  simp only [allotStep]
  rw [if_neg h]

/-- Simulation: started at a non-fringe index `j` above `k`, the
machine consumes a bounded amount of fuel, performs exactly the
subtree pass that `allotAt` describes (guarded by the test of cell
`j`), and returns to `moveOn` at `j`. -/
theorem allotRun_subtree (k : Nat) (r s : Option Nat) (N : Nat) (fc : Bool)
    (hNe : N % 2 = 0) :
    ∀ d j t, N - j = d → k < j → j < N →
      ∃ n, n + 4 ≤ 8 * N / j ∧ ∀ f,
        allotRun k r s N fc (n + f) (j, .nonFringe, t) =
          allotRun k r s N fc f (j, .moveOn,
            if entEqPtr (getCell t j) r = true then allotAt r s N fc j t
            else t) := by
  intro d
  induction d using Nat.strong_induction_on with
  | _ d ih =>
    intro j t hd hkj hjN
    have hj1 : 1 ≤ j := by omega
    have hdiv8 : 8 ≤ 8 * N / j := by
      calc 8 = 8 * j / j := by
            rw [Nat.mul_comm, Nat.mul_div_cancel_left 8 (by omega : 0 < j)]
      _ ≤ 8 * N / j := Nat.div_le_div_right (by omega)
    by_cases hc : entEqPtr (getCell t j) r = true
    · by_cases h2j : 2 * j < N
      · -- non-fringe children: recurse left then right
        obtain ⟨n1, hn1, hrun1⟩ := ih (N - 2 * j) (by omega) (2 * j) t rfl
          (by omega) h2j
        obtain ⟨n2, hn2, hrun2⟩ := ih (N - (2 * j + 1)) (by omega) (2 * j + 1)
          (if entEqPtr (getCell t (2 * j)) r = true then
            allotAt r s N fc (2 * j) t else t) rfl (by omega) (by omega)
        refine ⟨n1 + n2 + 4, ?_, ?_⟩
        · have e1 : 8 * N / (2 * j) = 4 * N / j := by
            rw [show 8 * N = 2 * (4 * N) from by ring,
              Nat.mul_div_mul_left (4 * N) j (by omega)]
          have e2 : 8 * N / (2 * j + 1) ≤ 8 * N / (2 * j) :=
            Nat.div_le_div_left (by omega) (by omega)
          have e3 : 2 * (4 * N / j) ≤ 8 * N / j := by
            rw [Nat.le_div_iff_mul_le (by omega : 0 < j)]
            have h5 : 4 * N / j * j ≤ 4 * N := Nat.div_mul_le_self (4 * N) j
            calc 2 * (4 * N / j) * j = 2 * (4 * N / j * j) := by ring
            _ ≤ 2 * (4 * N) := by omega
            _ ≤ 8 * N := by omega
          omega
        · intro f
          rw [show n1 + n2 + 4 + f = 1 + (n1 + (1 + (n2 + (1 + (1 + f)))))
            from by ring]
          rw [allotRun_step k r s N fc _ _
            (allotStep_nonFringe_down k r s N fc j t hc h2j)]
          rw [hrun1]
          rw [allotRun_step k r s N fc _ _
            (allotStep_moveOn_even k r s N fc (2 * j) _ (by omega))]
          rw [hrun2]
          rw [allotRun_step k r s N fc _ _
            (allotStep_moveOn_odd k r s N fc (2 * j + 1) _ (by omega))]
          rw [allotRun_step k r s N fc _ _
            (allotStep_moveUp_cont k r s N fc (2 * j + 1) _
              (by omega : ¬ (2 * j + 1) / 2 = k))]
          rw [show (2 * j + 1) / 2 = j from by omega]
          rw [if_pos hc]
          have hA : allotAt r s N fc j t =
              (if entEqPtr (getCell
                  (if entEqPtr (getCell t (2 * j)) r = true then
                    allotAt r s N fc (2 * j) t else t) (2 * j + 1)) r = true
                then allotAt r s N fc (2 * j + 1)
                  (if entEqPtr (getCell t (2 * j)) r = true then
                    allotAt r s N fc (2 * j) t else t)
                else (if entEqPtr (getCell t (2 * j)) r = true then
                  allotAt r s N fc (2 * j) t else t)).set j (.ptr s) := by
            rw [allotAt]
            rw [dif_neg (by omega : ¬ j = 0), dif_pos h2j]
          rw [hA]
      · -- fringe children: two fringe updates, then move up
        refine ⟨4, by omega, ?_⟩
        intro f
        rw [show 4 + f = 1 + (1 + (1 + (1 + f))) from by ring]
        rw [allotRun_step k r s N fc _ _
          (allotStep_nonFringe_downFr k r s N fc j t hc h2j)]
        rw [allotRun_step k r s N fc _ _
          (allotStep_fringe_even k r s N fc (2 * j) _ (by omega))]
        rw [allotRun_step k r s N fc _ _
          (allotStep_fringe_odd k r s N fc (2 * j + 1) _ (by omega))]
        rw [allotRun_step k r s N fc _ _
          (allotStep_moveUp_cont k r s N fc (2 * j + 1) _
            (by omega : ¬ (2 * j + 1) / 2 = k))]
        rw [show (2 * j + 1) / 2 = j from by omega]
        rw [if_pos hc]
        have hA : allotAt r s N fc j t =
            (fringeUpd fc r s (fringeUpd fc r s t (2 * j)) (2 * j + 1)).set j
              (.ptr s) := by
          rw [allotAt]
          rw [dif_neg (by omega : ¬ j = 0), dif_neg h2j]
        rw [hA]
    · -- the cell at `j` does not hold `r`: skip the subtree
      refine ⟨1, by omega, ?_⟩
      intro f
      rw [show 1 + f = 1 + f from rfl]
      rw [allotRun_step k r s N fc _ _
        (allotStep_nonFringe_skip k r s N fc j t hc)]
      rw [if_neg hc]

/-- The goto machine of `rtArtAllot`, with its fuel `8 * threshold + 8`,
computes exactly the recursion `allotAt` at the base index. -/
theorem rtArtAllot_eq_allotAt (t : List Ent) (k : Nat) (r s : Option Nat)
    (N : Nat) (fc : Bool) (hk : 1 ≤ k) (hNe : N % 2 = 0) :
    rtArtAllot t k r s N fc = allotAt r s N fc k t := by
  unfold rtArtAllot
  by_cases h2k : 2 * k < N
  · rw [if_pos h2k]
    obtain ⟨n1, hn1, hrun1⟩ := allotRun_subtree k r s N fc hNe (N - 2 * k)
      (2 * k) t rfl (by omega) h2k
    obtain ⟨n2, hn2, hrun2⟩ := allotRun_subtree k r s N fc hNe
      (N - (2 * k + 1)) (2 * k + 1)
      (if entEqPtr (getCell t (2 * k)) r = true then
        allotAt r s N fc (2 * k) t else t) rfl (by omega) (by omega)
    have hb1 : 8 * N / (2 * k) ≤ 4 * N := by
      calc 8 * N / (2 * k) ≤ 8 * N / 2 := Nat.div_le_div_left (by omega) (by omega)
      _ = 4 * N := by omega
    have hb2 : 8 * N / (2 * k + 1) ≤ 4 * N := by
      calc 8 * N / (2 * k + 1) ≤ 8 * N / 2 :=
        Nat.div_le_div_left (by omega) (by omega)
      _ = 4 * N := by omega
    rw [show 8 * N + 8 = n1 + (1 + (n2 + (1 + (1 + (8 * N + 5 - n1 - n2)))))
      from by omega]
    rw [hrun1]
    rw [allotRun_step k r s N fc _ _
      (allotStep_moveOn_even k r s N fc (2 * k) _ (by omega))]
    rw [hrun2]
    rw [allotRun_step k r s N fc _ _
      (allotStep_moveOn_odd k r s N fc (2 * k + 1) _ (by omega))]
    rw [allotRun_halt k r s N fc _ _
      (allotStep_moveUp_halt k r s N fc (2 * k + 1) _
        (by omega : (2 * k + 1) / 2 = k))]
    have hA : allotAt r s N fc k t =
        (if entEqPtr (getCell
            (if entEqPtr (getCell t (2 * k)) r = true then
              allotAt r s N fc (2 * k) t else t) (2 * k + 1)) r = true
          then allotAt r s N fc (2 * k + 1)
            (if entEqPtr (getCell t (2 * k)) r = true then
              allotAt r s N fc (2 * k) t else t)
          else (if entEqPtr (getCell t (2 * k)) r = true then
            allotAt r s N fc (2 * k) t else t)).set k (.ptr s) := by
      rw [allotAt]
      rw [dif_neg (by omega : ¬ k = 0), dif_pos h2k]
    rw [hA]
  · rw [if_neg h2k]
    rw [show 8 * N + 8 = 1 + (1 + (1 + (8 * N + 5))) from by omega]
    rw [allotRun_step k r s N fc _ _
      (allotStep_fringe_even k r s N fc (2 * k) _ (by omega))]
    rw [allotRun_step k r s N fc _ _
      (allotStep_fringe_odd k r s N fc (2 * k + 1) _ (by omega))]
    rw [allotRun_halt k r s N fc _ _
      (allotStep_moveUp_halt k r s N fc (2 * k + 1) _
        (by omega : (2 * k + 1) / 2 = k))]
    have hA : allotAt r s N fc k t =
        (fringeUpd fc r s (fringeUpd fc r s t (2 * k)) (2 * k + 1)).set k
          (.ptr s) := by
      rw [allotAt]
      rw [dif_neg (by omega : ¬ k = 0), dif_neg h2k]
    rw [hA]

/-!
## Bookkeeping of `heap[0]` (`count`)
-/

theorem entCnt_entWithCells (t : Ent) (cs : List Ent) :
    entCnt (entWithCells t cs) = entCnt t := by
  rcases t with p | ⟨l, a, b, ca, cs0⟩ <;> rfl

theorem entCnt_pcApplyFresh (t : Ent) (p : PcPending) :
    entCnt (pcApplyFresh t p) = entCnt t := by
  simp only [pcApplyFresh]
  split
  · rw [entCnt_entWithCells]
  · split
    · rw [entCnt_entWithCells]
    · rw [entCnt_entWithCells]

/-- `rtArtInsert` either takes the duplicate path (table word untouched,
`nRoutes` delta 0) or increments the heap's `count` by exactly one —
regardless of how many slots the allotment fills. -/
theorem rtArtInsert_count (routes : List Route) (t : Ent) (k N : Nat)
    (fc : Bool) (rv : Route) (rId : Nat) (hs : isSub t = true) :
    ((rtArtInsert routes t k N fc rv rId).2.2 = 0 ∧
      (rtArtInsert routes t k N fc rv rId).2.1 = t) ∨
    ((rtArtInsert routes t k N fc rv rId).2.2 = 1 ∧
      entCnt (rtArtInsert routes t k N fc rv rId).2.1 = entCnt t + 1) := by
  rcases t with p | ⟨l, a, b, ca, cs⟩
  · exact absurd hs (by simp [isSub])
  · simp only [rtArtInsert]
    split_ifs <;>
      first
        | exact Or.inl ⟨rfl, rfl⟩
        | exact Or.inr ⟨rfl, by simp [entBumpCnt, entWithCells, entCnt]⟩

/-- `rtArtDelete`'s per-heap bookkeeping (`sDelCore`): a miss leaves
the heap untouched; a hit decrements `count` by exactly one, freeing
the heap only when the counter reaches zero. -/
theorem sDelCore_count (routes : List Route) (t : Ent) (k N : Nat)
    (fc : Bool) (dest : List Nat) (plen l : Nat) (hs : isSub t = true) :
    sDelCore routes t k N fc dest plen l = .notFound ∨
    (∃ h p, sDelCore routes t k N fc dest plen l = .found (.stopped h) p ∧
      entCnt h = entCnt t - 1) ∨
    (∃ q p, sDelCore routes t k N fc dest plen l = .found (.freed q) p ∧
      entCnt t - 1 ≤ 0) := by
  rcases t with pp | ⟨lv, a, b, ca, cs⟩
  · exact absurd hs (by simp [isSub])
  · simp only [sDelCore]
    split
    · left; rfl
    · split
      · left; rfl
      · rename_i rr heq hne
        split
        · rename_i hpos
          right; left
          refine ⟨_, _, rfl, ?_⟩
          rw [entCnt_pcApplyFresh]
          simp only [entBumpCnt, entCnt]
          omega
        · split
          · right; left
            refine ⟨_, _, rfl, ?_⟩
            rw [entCnt_pcApplyFresh]
            simp only [entBumpCnt, entCnt]
            omega
          · rename_i hpos hl
            right; right
            refine ⟨_, _, rfl, ?_⟩
            simp only [entBumpCnt, entCnt] at hpos ⊢
            omega

/-!
## The duplicate paths of the insert routines do not mutate
-/

theorem set_getCell_self (cs : List Ent) : ∀ i, cs.set i (getCell cs i) = cs := by
  induction cs with
  | nil => intro i; rfl
  | cons a t ihc =>
      intro i
      cases i with
      | zero => rfl
      | succ m =>
          show a :: t.set m (getCell t m) = a :: t
          rw [ihc m]

theorem ent_set_self (t : Ent) (i : Nat) :
    entWithCells t ((entCells t).set i (getCell (entCells t) i)) = t := by
  rcases t with p | ⟨l, a, b, ca, cs⟩
  · rfl
  · show Ent.sub l a b ca (cs.set i (getCell cs i)) = Ent.sub l a b ca cs
    rw [set_getCell_self cs i]

theorem dupTest_spec (routes : List Route) (t : Ent) (k : Nat) (flag : Bool)
    (rv : Route) (h : dupTest routes t k flag rv = true) :
    ∃ rr, examinedPtr t k flag = some rr ∧
      (getRoute routes rr).plen = rv.plen ∧
      cmpAddr (getRoute routes rr).dest rv.dest rv.plen = true := by
  unfold dupTest at h
  rcases he : examinedPtr t k flag with _ | rr
  · rw [he] at h
    simp at h
  · rw [he] at h
    simp only [Bool.and_eq_true, decide_eq_true_eq] at h
    exact ⟨rr, rfl, h.1, h.2⟩

/-- On the duplicate path `rtArtInsert` returns the examined stored
word and leaves the heap untouched. -/
theorem rtArtInsert_dup (routes : List Route) (t : Ent) (k N : Nat)
    (flag : Bool) (rv : Route) (rId : Nat)
    (h : dupTest routes t k flag rv = true) :
    rtArtInsert routes t k N flag rv rId = (examinedPtr t k flag, t, 0) := by
  simp only [rtArtInsert]
  simp only [dupTest, examinedPtr] at h
  rw [if_pos h]
  simp only [examinedPtr]

/-- If the simple-trie insert descent finds the identity already
stored, `rtArtInsertRouteGo` returns the stored route and the
completely unchanged subtree. -/
theorem sInsertGo_dup (psi : List StrideInfo) (nLevels : Nat)
    (routes : List Route) (rv : Route) (rId : Nat) (index : Nat) :
    ∀ fuel pst l len flag pos off,
      sDupSeen psi nLevels routes rv index fuel pst l len flag pos off = true →
      ∃ rr lset,
        rtArtInsertRouteGo psi nLevels routes rv rId index fuel pst l len flag
          pos off = some (some rr, pst, 0, lset) ∧
        (getRoute routes rr).plen = rv.plen ∧
        cmpAddr (getRoute routes rr).dest rv.dest rv.plen = true := by
  intro fuel
  induction fuel with
  | zero =>
      intro pst l len flag pos off h
      simp [sDupSeen] at h
  | succ f ih =>
      intro pst l len flag pos off h
      simp only [sDupSeen] at h
      by_cases htgt : rv.plen ≤ len
      · rw [if_pos htgt] at h
        obtain ⟨rr, he, hp, hc⟩ := dupTest_spec routes pst index flag rv h
        refine ⟨rr, l, ?_, hp, hc⟩
        simp only [rtArtInsertRouteGo]
        rw [if_pos htgt]
        rw [rtArtInsert_dup routes pst index (1 <<< (psi.getD l default).sl)
          flag { rv with level := l } rId (by
            simp only [dupTest, examinedPtr] at h ⊢
            exact h)]
        rw [he]
      · rw [if_neg htgt] at h
        rcases hfi : fringeIndex rv.dest pos off (psi.getD l default).sl with
          ⟨pos2, off2, idx⟩
        rw [hfi] at h
        by_cases hsub : isSub (getCell (entCells pst) idx) = true
        · rw [if_pos hsub] at h
          by_cases hlev : l + 1 ≥ nLevels
          · rw [if_pos hlev] at h
            simp at h
          · rw [if_neg hlev] at h
            obtain ⟨rr, lset, hgo, hp, hc⟩ := ih (getCell (entCells pst) idx)
              (l + 1) (len + (psi.getD (l + 1) default).sl)
              (if l + 1 ≥ nLevels - 1 then false else flag) pos2 off2 h
            refine ⟨rr, lset, ?_, hp, hc⟩
            simp only [rtArtInsertRouteGo]
            rw [if_neg htgt]
            rw [hfi]
            simp only [hsub, if_true]
            rw [if_neg hlev]
            rw [hgo]
            simp only [ent_set_self]
        · rw [if_neg hsub] at h
          simp at h

/-- If the path-compressed insert descent finds the identity already
stored, `rtArtPcInsertGo` returns the stored route and the completely
unchanged subtree. -/
theorem pcInsertGo_dup (psi : List StrideInfo) (nLevels : Nat)
    (routes : List Route) (rv : Route) (rId : Nat) (index : Nat) :
    ∀ fuel pst l,
      pcDupSeen psi nLevels routes rv index fuel pst l = true →
      ∃ rr,
        rtArtPcInsertGo psi nLevels routes rv rId index fuel pst l =
          some (some rr, pst, 0) ∧
        (getRoute routes rr).plen = rv.plen := by
  intro fuel
  induction fuel with
  | zero =>
      intro pst l h
      simp [pcDupSeen] at h
  | succ f ih =>
      intro pst l h
      simp only [pcDupSeen] at h
      by_cases hl : l < nLevels
      · rw [if_pos hl] at h
        rcases hso : setStartBitPos psi 0 l with ⟨pos, off⟩
        rw [hso] at h
        simp only [] at h
        by_cases hsub : (decide (rv.level > 0) && isSub (getCell (entCells pst)
            (fringeIndex rv.dest pos off (psi.getD l default).sl).2.2)) = true
        · rw [if_pos hsub] at h
          rcases hbs : bitStrCmp
              (entCache (getCell (entCells pst)
                (fringeIndex rv.dest pos off (psi.getD l default).sl).2.2))
              rv.dest 0
              (if entLevel (getCell (entCells pst)
                    (fringeIndex rv.dest pos off
                      (psi.getD l default).sl).2.2) < rv.level then
                (psi.getD (entLevel (getCell (entCells pst)
                  (fringeIndex rv.dest pos off
                    (psi.getD l default).sl).2.2) - 1) default).tl - 1
              else (psi.getD (rv.level - 1) default).tl - 1) with ⟨cmp, iw⟩
          rw [hbs] at h
          by_cases hcmp : cmp = 0
          · rw [if_pos hcmp] at h
            by_cases hgt : rv.level > entLevel (getCell (entCells pst)
                (fringeIndex rv.dest pos off (psi.getD l default).sl).2.2)
            · rw [if_pos hgt] at h
              obtain ⟨rr, hgo, hp⟩ := ih _ _ h
              refine ⟨rr, ?_, hp⟩
              simp only [rtArtPcInsertGo]
              rw [if_pos hl, hso]
              rw [if_pos hsub, hbs]
              rw [if_pos hcmp, if_pos hgt]
              rw [hgo]
              simp only [ent_set_self]
            · rw [if_neg hgt] at h
              by_cases hlt : rv.level < entLevel (getCell (entCells pst)
                  (fringeIndex rv.dest pos off (psi.getD l default).sl).2.2)
              · rw [if_pos hlt] at h
                simp at h
              · rw [if_neg hlt] at h
                obtain ⟨rr, he, hp, _hc⟩ := dupTest_spec routes _ index _ rv h
                refine ⟨rr, ?_, hp⟩
                simp only [rtArtPcInsertGo]
                rw [if_pos hl, hso]
                rw [if_pos hsub, hbs]
                rw [if_pos hcmp, if_neg hgt, if_neg hlt]
                rw [rtArtInsert_dup routes _ index _ _ rv rId h]
                rw [he]
                simp only [ent_set_self]
          · rw [if_neg hcmp] at h
            by_cases hnl : firstDiffLevel psi iw
                (entCache (getCell (entCells pst)
                  (fringeIndex rv.dest pos off (psi.getD l default).sl).2.2))
                rv.dest < entLevel (getCell (entCells pst)
                  (fringeIndex rv.dest pos off (psi.getD l default).sl).2.2)
            · rw [if_pos hnl] at h
              simp at h
            · rw [if_neg hnl] at h
              rcases hd : entAsPtr (getCell (entCells (getCell (entCells pst)
                  (fringeIndex rv.dest pos off (psi.getD l default).sl).2.2)) 1)
                  with _ | d
              · rw [hd] at h
                simp only [] at h
                obtain ⟨rr, hgo, hp⟩ := ih _ _ h
                refine ⟨rr, ?_, hp⟩
                simp only [rtArtPcInsertGo]
                rw [if_pos hl, hso]
                rw [if_pos hsub, hbs]
                rw [if_neg hcmp, if_neg hnl, hd]
                simp only []
                rw [hgo]
                simp only [ent_set_self]
              · rw [hd] at h
                simp only [] at h
                by_cases hpl : (getRoute routes d).plen = rv.plen
                · refine ⟨d, ?_, hpl⟩
                  simp only [rtArtPcInsertGo]
                  rw [if_pos hl, hso]
                  rw [if_pos hsub, hbs]
                  rw [if_neg hcmp, if_neg hnl, hd]
                  simp only []
                  rw [if_pos hpl]
                · rw [if_neg hpl] at h
                  obtain ⟨rr, hgo, hp⟩ := ih _ _ h
                  refine ⟨rr, ?_, hp⟩
                  simp only [rtArtPcInsertGo]
                  rw [if_pos hl, hso]
                  rw [if_pos hsub, hbs]
                  rw [if_neg hcmp, if_neg hnl, hd]
                  simp only []
                  rw [if_neg hpl]
                  rw [hgo]
                  simp only [ent_set_self]
        · rw [if_neg hsub] at h
          by_cases hle : rv.level = l
          · rw [if_pos hle] at h
            obtain ⟨rr, he, hp, _hc⟩ := dupTest_spec routes pst index _ rv h
            refine ⟨rr, ?_, hp⟩
            simp only [rtArtPcInsertGo]
            rw [if_pos hl, hso]
            rw [if_neg hsub]
            rw [if_pos hle]
            rw [rtArtInsert_dup routes pst index _ _ rv rId h]
            rw [he]
          · rw [if_neg hle] at h
            simp at h
      · rw [if_neg hl] at h
        simp at h

/-- Duplicate default-route insert (simple trie): the stored pointer
comes back and the table is returned unchanged. -/
theorem rtArtInsertRoute_default_dup (pt : RtTable) (dest : List Nat)
    (e : Nat) (he : entAsPtr (getCell (entCells pt.root) 1) = some e) :
    rtArtInsertRoute pt dest 0 = (some e, pt) := by
  simp only [rtArtInsertRoute]
  rw [if_pos trivial]
  rw [he]

/-- Duplicate default-route insert (path-compressed trie). -/
theorem rtArtPcInsertRoute_default_dup (pt : RtTable) (dest : List Nat)
    (e : Nat) (he : entAsPtr (getCell (entCells pt.root) 1) = some e) :
    rtArtPcInsertRoute pt dest 0 = (some e, pt) := by
  simp only [rtArtPcInsertRoute]
  rw [if_pos trivial]
  rw [he]

/-- A duplicate insert into the simple trie returns the stored route
and the very same table value. -/
theorem rtArtInsertRoute_dup_noop (pt : RtTable) (dest : List Nat)
    (plen : Nat) (h0 : 0 < plen)
    (h : sDupSeen pt.psi pt.nLevels pt.routes ⟨dest, plen, 0⟩
        (baseIndex pt.psi dest plen) (pt.nLevels + 1) pt.root 0
        ((pt.psi.getD 0 default).sl) true 0 0 = true) :
    ∃ rr, rtArtInsertRoute pt dest plen = (some rr, pt) ∧
      (getRoute pt.routes rr).plen = plen ∧
      cmpAddr (getRoute pt.routes rr).dest dest plen = true := by
  obtain ⟨rr, lset, hgo, hp, hc⟩ := sInsertGo_dup pt.psi pt.nLevels pt.routes
    ⟨dest, plen, 0⟩ pt.routes.length (baseIndex pt.psi dest plen)
    (pt.nLevels + 1) pt.root 0 ((pt.psi.getD 0 default).sl) true 0 0 h
  have hdefp : (default : Route).plen = 0 := rfl
  have hrvp : (⟨dest, plen, 0⟩ : Route).plen = plen := rfl
  have hrr : rr < pt.routes.length := by
    by_contra hge
    have hdef : getRoute pt.routes rr = default := by
      unfold getRoute
      exact List.getD_eq_default _ _ (by omega)
    rw [hdef, hdefp, hrvp] at hp
    omega
  have hne : ¬ (some rr = some pt.routes.length) := by
    intro hcontra
    injection hcontra with hcc
    omega
  refine ⟨rr, ?_, hp, hc⟩
  simp only [rtArtInsertRoute]
  rw [if_neg (by omega : ¬ plen = 0)]
  rw [hgo]
  simp only []
  rw [if_neg hne]
  rcases pt with ⟨psi0, nL0, al0, rt0, nR0, rts0⟩
  simp

/-- A duplicate insert into the path-compressed trie returns the
stored route and the very same table value. -/
theorem rtArtPcInsertRoute_dup_noop (pt : RtTable) (dest : List Nat)
    (plen : Nat) (h0 : 0 < plen)
    (h : pcDupSeen pt.psi pt.nLevels pt.routes
        ⟨dest, plen, plen2level pt.psi plen⟩ (baseIndex pt.psi dest plen)
        (pt.nLevels + 1) pt.root 0 = true) :
    ∃ rr, rtArtPcInsertRoute pt dest plen = (some rr, pt) ∧
      (getRoute pt.routes rr).plen = plen := by
  obtain ⟨rr, hgo, hp⟩ := pcInsertGo_dup pt.psi pt.nLevels pt.routes
    ⟨dest, plen, plen2level pt.psi plen⟩ pt.routes.length
    (baseIndex pt.psi dest plen) (pt.nLevels + 1) pt.root 0 h
  have hdefp : (default : Route).plen = 0 := rfl
  have hrvp : (⟨dest, plen, plen2level pt.psi plen⟩ : Route).plen = plen := rfl
  have hrr : rr < pt.routes.length := by
    by_contra hge
    have hdef : getRoute pt.routes rr = default := by
      unfold getRoute
      exact List.getD_eq_default _ _ (by omega)
    rw [hdef, hdefp, hrvp] at hp
    omega
  have hne : ¬ (some rr = some pt.routes.length) := by
    intro hcontra
    injection hcontra with hcc
    omega
  refine ⟨rr, ?_, hp⟩
  simp only [rtArtPcInsertRoute]
  rw [if_neg (by omega : ¬ plen = 0)]
  rw [hgo]
  simp only []
  rw [if_neg hne]
  rcases pt with ⟨psi0, nL0, al0, rt0, nR0, rts0⟩
  simp

/-!
## Roundtrip of the allotment: deleting a fresh insertion restores
the heap
-/

theorem chainHolds_imp_up {fc : Bool} {r : Option Nat} {N : Nat}
    {t : List Ent} {k j : Nat} (hkj : k < j)
    (h : chainHolds fc r N t k j = true) :
    chainHolds fc r N t k (j / 2) = true := by
  rw [chainHolds_unfold, if_neg (by omega : ¬ j ≤ k)] at h
  simp only [Bool.and_eq_true] at h
  exact h.2

theorem chainHolds_all (fc : Bool) (r : Option Nat) (T : Nat) (cells : List Ent)
    (k : Nat) (H : ∀ m, k < m → holdsAt fc r T cells m = true) :
    ∀ j, chainHolds fc r T cells k j = true := by
  intro j
  induction j using Nat.strong_induction_on with
  | _ j ih =>
      rw [chainHolds]
      split
      · rfl
      · rename_i hgt
        rw [H j (by omega), ih (j / 2) (by omega)]
        rfl

theorem findSome_range_single {β : Type} (f : Nat → Option β) (e : β) :
    ∀ n j, j < n → f j = some e → (∀ d, d < n → d ≠ j → f d = none) →
    (List.range n).findSome? f = some e := by
  have key : ∀ (a n j : Nat), a ≤ j → j < a + n → f j = some e →
      (∀ d, a ≤ d → d < a + n → d ≠ j → f d = none) →
      (List.range' a n).findSome? f = some e := by
    intro a n
    induction n generalizing a with
    | zero => intro j h1 h2; omega
    | succ m ih =>
        intro j h1 h2 hj hothers
        rw [List.range'_succ]
        rw [List.findSome?_cons]
        by_cases ha : a = j
        · subst ha
          rw [hj]
        · rw [hothers a (Nat.le_refl a) (by omega) ha]
          exact ih (a + 1) j (by omega) (by omega) hj
            (fun d hd1 hd2 hd3 => hothers d (by omega) (by omega) hd3)
  intro n j h1 h2 h3
  rw [List.range_eq_range']
  exact key 0 n j (Nat.zero_le j) (by omega) h2
    (fun d hd1 hd2 hd3 => h3 d (by omega) hd3)

/-- `findSubtable` on a heap whose only subtable cell in the fringe
range sits at index `i`. -/
theorem findSubtable_single (psi : List StrideInfo) (t : Ent) (i : Nat)
    (l2 : Nat) (a2 b2 : Int) (ca2 : List Nat) (ccs : List Ent)
    (hge : 1 <<< (psi.getD (entLevel t) default).sl ≤ i)
    (hlt : i < 2 * (1 <<< (psi.getD (entLevel t) default).sl))
    (hat : getCell (entCells t) i = .sub l2 a2 b2 ca2 ccs)
    (hothers : ∀ j, 1 <<< (psi.getD (entLevel t) default).sl ≤ j →
      j < 2 * (1 <<< (psi.getD (entLevel t) default).sl) → j ≠ i →
      ∃ q, getCell (entCells t) j = .ptr q) :
    findSubtable psi t = some (.sub l2 a2 b2 ca2 ccs) := by
  unfold findSubtable
  have hT : 1 <<< (psi.getD (entLevel t) default).sl +
      (i - 1 <<< (psi.getD (entLevel t) default).sl) = i := by omega
  refine findSome_range_single _ _ (1 <<< (psi.getD (entLevel t) default).sl)
    (i - 1 <<< (psi.getD (entLevel t) default).sl) (by omega) ?_ ?_
  · rw [hT, hat]
  · intro d hd hdi
    obtain ⟨q, hq⟩ := hothers (1 <<< (psi.getD (entLevel t) default).sl + d)
      (by omega) (by omega) (by omega)
    rw [hq]

/-- C4.  Inserting a route whose identity is already stored returns the
already-stored route and leaves the table completely unchanged (same
root value — every slot and per-node counter — same `nRoutes`, same
route store), in both variants, including the `plen = 0` default-route
case.  "Already stored" is expressed structurally: the insert descent
reaches, through existing subtables, a heap whose examined word holds
the identity (`sDupSeen`/`pcDupSeen`), which on reachable tables is
where a stored identity lives. -/
theorem art_C4_duplicate_insert_is_noop :
    (∀ pt dest e, entAsPtr (getCell (entCells pt.root) 1) = some e →
      rtArtInsertRoute pt dest 0 = (some e, pt)) ∧
    (∀ pt dest e, entAsPtr (getCell (entCells pt.root) 1) = some e →
      rtArtPcInsertRoute pt dest 0 = (some e, pt)) ∧
    (∀ pt dest plen, 0 < plen →
      sDupSeen pt.psi pt.nLevels pt.routes ⟨dest, plen, 0⟩
        (baseIndex pt.psi dest plen) (pt.nLevels + 1) pt.root 0
        ((pt.psi.getD 0 default).sl) true 0 0 = true →
      ∃ rr, rtArtInsertRoute pt dest plen = (some rr, pt) ∧
        (getRoute pt.routes rr).plen = plen ∧
        cmpAddr (getRoute pt.routes rr).dest dest plen = true) ∧
    (∀ pt dest plen, 0 < plen →
      pcDupSeen pt.psi pt.nLevels pt.routes
        ⟨dest, plen, plen2level pt.psi plen⟩ (baseIndex pt.psi dest plen)
        (pt.nLevels + 1) pt.root 0 = true →
      ∃ rr, rtArtPcInsertRoute pt dest plen = (some rr, pt) ∧
        (getRoute pt.routes rr).plen = plen) :=
  ⟨rtArtInsertRoute_default_dup, rtArtPcInsertRoute_default_dup,
   rtArtInsertRoute_dup_noop, rtArtPcInsertRoute_dup_noop⟩

/-- Witness for C4: a duplicate insert of `0x00/2` into `sT1` (which
stores exactly that route) returns route 0 and the unchanged table. -/
theorem art_C4_duplicate_insert_is_noop_witness :
    (0 < 2 ∧ sDupSeen sT1.psi sT1.nLevels sT1.routes ⟨[0x00], 2, 0⟩
        (baseIndex sT1.psi [0x00] 2) (sT1.nLevels + 1) sT1.root 0
        ((sT1.psi.getD 0 default).sl) true 0 0 = true) ∧
    (∃ rr, rtArtInsertRoute sT1 [0x00] 2 = (some rr, sT1) ∧
      (getRoute sT1.routes rr).plen = 2 ∧
      cmpAddr (getRoute sT1.routes rr).dest [0x00] 2 = true) :=
  ⟨⟨by decide, by rfl⟩,
    art_C4_duplicate_insert_is_noop.2.2.1 sT1 [0x00] 2 (by decide) (by rfl)⟩

/-- C7 counterexample: the reachable simple-trie table `sT1` (one
insert of `0x00/2` into an empty `[4,2,2]` table) has root `count` 1,
while 7 of the root slots in `2 .. 2N-1` are non-empty (the allotted
copies of the route), so `count` does not equal the non-empty-slot
census the claim states. -/
theorem art_C7_sT1_count_vs_slots :
    entCnt sT1.root = 1 ∧ nonEmptyCount sT1.root = 7 ∧ sT1.nRoutes = 1 := by
  exact ⟨rfl, rfl, rfl⟩

/-- C7 (amended).  In the simple-trie variant `heap[0]` (`count`) is a
per-heap reference counter, not a census of non-empty slots: a
duplicate insert leaves the heap word untouched, any other
`rtArtInsert` increments `count` by exactly one however many slots the
allotment fills, and a hitting `rtArtDelete` decrements it by exactly
one, freeing the heap only when it reaches zero; concretely, after one
insert of `0x00/2` the root has `count` 1 with 7 non-empty slots. -/
theorem art_C7_count_is_reference_counter :
    (∀ routes t k N fc rv rId, isSub t = true →
      ((rtArtInsert routes t k N fc rv rId).2.2 = 0 ∧
        (rtArtInsert routes t k N fc rv rId).2.1 = t) ∨
      ((rtArtInsert routes t k N fc rv rId).2.2 = 1 ∧
        entCnt (rtArtInsert routes t k N fc rv rId).2.1 = entCnt t + 1)) ∧
    (∀ routes t k N fc dest plen l, isSub t = true →
      sDelCore routes t k N fc dest plen l = .notFound ∨
      (∃ h p, sDelCore routes t k N fc dest plen l = .found (.stopped h) p ∧
        entCnt h = entCnt t - 1) ∨
      (∃ q p, sDelCore routes t k N fc dest plen l = .found (.freed q) p ∧
        entCnt t - 1 ≤ 0)) ∧
    entCnt sT1.root = 1 ∧ nonEmptyCount sT1.root = 7 :=
  ⟨fun routes t k N fc rv rId hs => rtArtInsert_count routes t k N fc rv rId hs,
   fun routes t k N fc dest plen l hs =>
     sDelCore_count routes t k N fc dest plen l hs,
   rfl, rfl⟩

/-- Witness for the amended C7 at a concrete heap: the insert and
delete clauses applied to an explicit subtable cell. -/
theorem art_C7_count_is_reference_counter_witness :
    isSub (Ent.sub 0 0 0 [] []) = true ∧
    (((rtArtInsert [] (Ent.sub 0 0 0 [] []) 2 4 false ⟨[], 0, 0⟩ 0).2.2 = 0 ∧
       (rtArtInsert [] (Ent.sub 0 0 0 [] []) 2 4 false ⟨[], 0, 0⟩ 0).2.1 =
         Ent.sub 0 0 0 [] []) ∨
     ((rtArtInsert [] (Ent.sub 0 0 0 [] []) 2 4 false ⟨[], 0, 0⟩ 0).2.2 = 1 ∧
       entCnt (rtArtInsert [] (Ent.sub 0 0 0 [] []) 2 4 false
           ⟨[], 0, 0⟩ 0).2.1 = entCnt (Ent.sub 0 0 0 [] []) + 1)) :=
  ⟨rfl, art_C7_count_is_reference_counter.1 [] (Ent.sub 0 0 0 [] []) 2 4 false
    ⟨[], 0, 0⟩ 0 rfl⟩

/-- C2.  `rtArtAllot(t, k, r, s, N, fringeCheck)` with `N = 2^sl`,
`2 ≤ k < N` and a heap of `2 N` cells mutates exactly the claimed set
of cells: cell `k` becomes `s`; a strict descendant `j` of `k` inside
the heap changes exactly when every index on the path from `k`
(exclusive) down to `j` held `r` before the call, and then `j` becomes
`s` — except that at a subtable pointer under `fringeCheck` the child
heap's cell 1 is replaced instead; every other cell is unchanged.
(`allotSpecCell` transcribes the claim; the goto machine, run on its
fuel, is proved equal to the recursion it expands and the recursion
is characterized per cell.) -/
theorem art_C2_allot_matches_spec (t : List Ent) (k sl : Nat)
    (r s : Option Nat) (fc : Bool) (hk : 2 ≤ k) (hkN : k < 2 ^ sl)
    (hlen : t.length = 2 * 2 ^ sl) :
    (rtArtAllot t k r s (2 ^ sl) fc).length = t.length ∧
    ∀ j, getCell (rtArtAllot t k r s (2 ^ sl) fc) j =
      allotSpecCell t k r s (2 ^ sl) fc j := by
  have hN3 : 3 ≤ 2 ^ sl := by omega
  have hNe : 2 ^ sl % 2 = 0 := by
    cases sl with
    | zero => norm_num at hkN; omega
    | succ m => rw [pow_succ]; omega
  have heq := rtArtAllot_eq_allotAt t k r s (2 ^ sl) fc (by omega) hNe
  refine ⟨?_, ?_⟩
  · rw [heq]
    exact length_allotAt fc r s (2 ^ sl) (2 ^ sl - k) k t rfl
  · intro j
    rw [heq]
    rw [allotAt_cell fc r s (2 ^ sl) (2 ^ sl - k) k t rfl hNe (by omega)
      hkN hlen j]
    unfold allotSpecCell
    by_cases h1 : j = k
    · rw [if_pos h1, if_pos h1]
    · rw [if_neg h1, if_neg h1]
      by_cases h2 : isUnder k j = true ∧ j < 2 * 2 ^ sl
      · rw [if_pos h2, if_pos h2]
        by_cases h3 : chainHolds fc r (2 ^ sl) t k j = true
        · rw [if_pos h3, if_pos h3]
          rcases hc : getCell t j with p | ⟨l, a, b, ca, cs⟩ <;> rfl
        · rw [if_neg h3, if_neg h3]
      · rw [if_neg h2, if_neg h2]

/-- Witness for C2: the full statement at a concrete heap (8 empty
cells, `sl = 2`, `k = 2`). -/
theorem art_C2_allot_matches_spec_witness :
    (rtArtAllot (List.replicate 8 (Ent.ptr none)) 2 none (some 0) (2 ^ 2)
        false).length = (List.replicate 8 (Ent.ptr none)).length ∧
    ∀ j, getCell (rtArtAllot (List.replicate 8 (Ent.ptr none)) 2 none (some 0)
        (2 ^ 2) false) j =
      allotSpecCell (List.replicate 8 (Ent.ptr none)) 2 none (some 0) (2 ^ 2)
        false j :=
  art_C2_allot_matches_spec (List.replicate 8 (Ent.ptr none)) 2 2 none
    (some 0) false (by decide) (by decide) rfl

/-- C1.  The claim says `findMatch(a)` returns, for every reachable
table state of either variant, a stored route matching `a` with no
longer stored match.  It fails on the path-compressed variant: the
reachable table `pcT2` (two inserts into an empty `[4,2,2]` table)
stores `0xA0/4`, which matches the address `0xA4`, but
`rtArtPcFindMatch` falls into its `AddrComp` fallback with the examined
cell empty and dereferences a NULL route pointer instead of returning
the match. -/
theorem art_C1_pc_findMatch_crashes_instead_of_matching :
    rtArtPcFindMatch pcT2 [0xA4] = .error .derefNullRoute ∧
    getRoute pcT2.routes 0 = ⟨[0xA0], 4, 0⟩ ∧
    cmpAddr [0xA4] (getRoute pcT2.routes 0).dest (getRoute pcT2.routes 0).plen
      = true ∧
    pcT2.nRoutes = 2 := by
  exact ⟨rfl, rfl, rfl, rfl⟩

/-- C5.  The claim says `findExactMatch(dest, plen)` returns the stored
route of that exact identity, or else the table default `root[1]`, in
both variants.  It fails on the path-compressed variant: on the
reachable table `pcT5` (one insert of `0xA1/8`, whose heap hangs at
level 2 directly below the root), the exact lookup of `0xA0/6` exits
its descent loop normally (levels 0 and 1 are compressed away), and the
`AddrComp` climb then reads the untagged subtable pointer as a route —
a type-confused read — instead of returning the (absent) table
default. -/
theorem art_C5_pc_findExact_misreads_subtable_word :
    rtArtPcFindExactMatch pcT5 [0xA0] 6 = .error .subtableWordAsRoute ∧
    pcT5.routes = [⟨[0xA1], 8, 2⟩] ∧
    entAsPtr (getCell (entCells pcT5.root) 1) = none := by
  exact ⟨rfl, rfl, rfl⟩

/-- C6.  The claim says deleting a prefix that stores no route returns
false and leaves the table state (including `nRoutes`) unchanged, in
particular for `plen = 0` with no default route.  Both variants violate
the `plen = 0` case on the empty table: the simple variant returns
false but decrements `nRoutes` to `-1`; the `ipArtPathComp.c` delete
returns `true` (it never checks that a default route is present). -/
theorem art_C6_delete_missing_default_mutates :
    (rtArtDeleteRoute (mkSimpleTable [4, 2, 2] 8) [0x00] 0).1 = false ∧
    (mkSimpleTable [4, 2, 2] 8).nRoutes = 0 ∧
    (rtArtDeleteRoute (mkSimpleTable [4, 2, 2] 8) [0x00] 0).2.nRoutes = -1 ∧
    (rtArtPcDeleteRoute (mkPcTable [4, 2, 2] 8) [0x00] 0).1 = true ∧
    (rtArtPcDeleteRoute (mkPcTable [4, 2, 2] 8) [0x00] 0).2.nRoutes = -1 := by
  exact ⟨rfl, rfl, rfl, rfl, rfl⟩

/-- C9.  The claim says full depth-first and breadth-first walks invoke
the callback exactly once per stored route, including the table default
in `root[1]`, and never on an allotted copy.  Both walks fail on the
reachable table `sTd`, which stores exactly the default route (`nRoutes
= 1`, `root[1]` set): neither walk invokes the callback at all.  The
breadth-first walk additionally invokes the callback twice, on allotted
copies, for the single stored route of `sTp1` (a `/1` route at a
non-fringe index of the root, whose per-index prefix length
`rtArtWalkBaseIndices` miscomputes by one at level 0). -/
theorem art_C9_walks_miss_default_and_bf_duplicates :
    sTd.nRoutes = 1 ∧
    entAsPtr (getCell (entCells sTd.root) 1) = some 0 ∧
    rtArtDFwalk sTd sTd.root = [] ∧
    rtArtBFwalk sTd sTd.root = [] ∧
    sTp1.nRoutes = 1 ∧
    rtArtBFwalk sTp1 sTp1.root = [0, 0] := by
  exact ⟨rfl, rfl, rfl, rfl, rfl, rfl⟩

/-- C10.  The claim says the path-compressed `findMatch` never reaches
its final address-comparison fallback while the examined entry is
empty.  On the reachable table `pcT2` and address `0xA4`, the descent
loop breaks on an empty fringe cell with a remembered non-NULL subtable
default, so control reaches `AddrComp` with the examined entry empty
and dereferences NULL. -/
theorem art_C10_pc_findMatch_addrcomp_on_empty_entry :
    rtArtPcFindMatchGo pcT2.psi (pcT2.nLevels - 1) [0xA4] (pcT2.nLevels + 1)
      pcT2.root none = .ok (.brk (.ptr none) (some 0)) ∧
    rtArtPcFindMatch pcT2 [0xA4] = .error .derefNullRoute := by
  exact ⟨rfl, rfl⟩

end Art
